import Mathlib

/-!
Verification development for the DIU-Transport schedule page (`scripts.js`).

The core under study is the schedule parser: `parseSchedule` (row classification
and accumulation), `normalizeTime`/`formatTime` (time normalization), the
dedup post-pass, the filtering logic of `render`, and the Friday badge of
`routeCard`.  JS strings are modelled through their character lists, JS numbers
as rationals, and JS regexes as explicit character-list matchers.
-/

/-- Cell value of the decoded spreadsheet grid: a JS string, a JS number, or an
empty/missing cell (`undefined`).  Numbers are modelled as rationals (`NaN` is
not representable; no claim involves it). -/
inductive Cell where
  | empty : Cell
  | str : String → Cell
  | num : ℚ → Cell
deriving DecidableEq

/-- JS truthiness of a cell value: `undefined`, `""` and `0` are falsy. -/
def Cell.truthy : Cell → Bool
  | .empty => false
  | .str s => !(s == "")
  | .num q => !(q == 0)

/-- Whitespace test, the regex class `\s` restricted to its ASCII members. -/
def isWsChar (c : Char) : Bool :=
  c == ' ' || c == '\t' || c == '\n' || c == '\r' || c == '\x0B' || c == '\x0C'

/-- ASCII digit test, the regex class `\d`. -/
def isDigitChar (c : Char) : Bool := 48 ≤ c.toNat && c.toNat ≤ 57

/-- ASCII lower-casing of one character, as performed by JS `toLowerCase` and by
case-insensitive regex matching on ASCII input. -/
def lowerChar (c : Char) : Char :=
  if 65 ≤ c.toNat && c.toNat ≤ 90 then Char.ofNat (c.toNat + 32) else c

/-- ASCII upper-casing of one character, JS `toUpperCase` on ASCII input. -/
def upperChar (c : Char) : Char :=
  if 97 ≤ c.toNat && c.toNat ≤ 122 then Char.ofNat (c.toNat - 32) else c

/-- JS `String.prototype.toLowerCase` (ASCII). -/
def lowerStr (s : String) : String := ⟨s.data.map lowerChar⟩

/-- JS `String.prototype.toUpperCase` (ASCII). -/
def upperStr (s : String) : String := ⟨s.data.map upperChar⟩

/-- Replace every maximal whitespace run by a single space:
`replace(/\s+/g, " ")`.  The flag records whether the previously read character
was whitespace (i.e. whether a run is already open). -/
def squashWs : Bool → List Char → List Char
  | _, [] => []
  | prevWs, c :: cs =>
    if isWsChar c then
      if prevWs then squashWs true cs else ' ' :: squashWs true cs
    else c :: squashWs false cs

/-- Drop leading whitespace, the front half of JS `trim`. -/
def trimFront (l : List Char) : List Char := l.dropWhile isWsChar

/-- Drop trailing whitespace, the back half of JS `trim`. -/
def trimBack : List Char → List Char
  | [] => []
  | c :: cs =>
    let r := trimBack cs
    if r.isEmpty && isWsChar c then [] else c :: r

/-- JS `String.prototype.trim`. -/
def jsTrim (s : String) : String := ⟨trimBack (trimFront s.data)⟩

/-- Whitespace collapse followed by trim:
`t.toString().replace(/\s+/g, " ").trim()` (scripts.js:161). -/
def cleanL (l : List Char) : List Char := trimBack (trimFront (squashWs false l))

/-- Case-insensitive literal match of `pat` (given in lower case) at the head of
`l`; returns the remainder on success. -/
def stripCI : List Char → List Char → Option (List Char)
  | [], l => some l
  | _ :: _, [] => none
  | p :: ps, c :: cs => if lowerChar c == p then stripCI ps cs else none

/-- Does `w1`, then `\s*`, then `w2` match at the head of `l`?  (Greedy
whitespace skipping is exact here because neither word starts with
whitespace.) -/
def pairHere (w1 w2 : List Char) (l : List Char) : Bool :=
  match stripCI w1 l with
  | some rest => (stripCI w2 (rest.dropWhile isWsChar)).isSome
  | none => false

/-- Unanchored case-insensitive search for `w1\s*w2`: the shape of the
`/friday\s*schedule/i`, `/route\s*no/i` and `/route\s*details/i` tests
(scripts.js:85-86, 109). -/
def pairSearch (w1 w2 : List Char) : List Char → Bool
  | [] => pairHere w1 w2 []
  | c :: cs => pairHere w1 w2 (c :: cs) || pairSearch w1 w2 cs

/-- The mode-switch marker test `/friday\s*schedule/i.test(c0)` (scripts.js:103). -/
def fridayMarkerTest (s : String) : Bool := pairSearch "friday".data "schedule".data s.data

/-- The header test `/route\s*no/i.test(c0)` (scripts.js:109). -/
def headerTest (s : String) : Bool := pairSearch "route".data "no".data s.data

/-- The header test `/route\s*details/i.test(c3)` (scripts.js:109). -/
def detailsTest (s : String) : Bool := pairSearch "route".data "details".data s.data

/-- The route-opening test `/^[RF]\d+/i.test(c0)` (scripts.js:114). -/
def routeCodeTest (s : String) : Bool :=
  match s.data with
  | a :: b :: _ => (lowerChar a == 'r' || lowerChar a == 'f') && isDigitChar b
  | _ => false

/-- Unanchored case-insensitive search for a literal word. -/
def wordSearch (w : List Char) : List Char → Bool
  | [] => (stripCI w []).isSome
  | c :: cs => (stripCI w (c :: cs)).isSome || wordSearch w cs

/-- The range test `/to/i.test(t)` (scripts.js:163). -/
def hasToTest (l : List Char) : Bool := wordSearch ['t', 'o'] l

/-- Case-insensitive `AM`/`PM` letter pair. -/
def ampmOk (a b : Char) : Bool :=
  (lowerChar a == 'a' || lowerChar a == 'p') && lowerChar b == 'm'

/-- Two AM/PM letters and nothing else. -/
def ampmTail2 : List Char → Option (Char × Char)
  | [a, b] => if ampmOk a b then some (a, b) else none
  | _ => none

/-- Match `\s*(AM|PM)$`: skip whitespace greedily, then exactly two AM/PM
letters and the end of the string. -/
def ampmTail (rest : List Char) : Option (Char × Char) :=
  ampmTail2 (rest.dropWhile isWsChar)

/-- Rewrite `^(\d{1,2})\.(\d{2})\s*(AM|PM)$` into `$1:$2 $3` (scripts.js:164);
the input is returned unchanged when the pattern does not match.  The two
alternatives for `\d{1,2}` are disjoint because `'.'` is not a digit. -/
def dotRewrite (l : List Char) : List Char :=
  match l with
  | c1 :: c2 :: c3 :: c4 :: rest =>
    if c2 == '.' && isDigitChar c1 && isDigitChar c3 && isDigitChar c4 then
      match ampmTail rest with
      | some p => [c1, ':', c3, c4, ' ', p.1, p.2]
      | none => l
    else
      match rest with
      | c5 :: rest2 =>
        if c3 == '.' && isDigitChar c1 && isDigitChar c2 && isDigitChar c4 && isDigitChar c5 then
          match ampmTail rest2 with
          | some p => [c1, c2, ':', c4, c5, ' ', p.1, p.2]
          | none => l
        else l
      | [] => l
  | _ => l

/-- Optional tail `(\s?(AM|PM))?$` of the final-format test: empty, two AM/PM
letters, or one whitespace character then two AM/PM letters. -/
def colonTail : List Char → Bool
  | [] => true
  | [a, b] => ampmOk a b
  | [w, a, b] => isWsChar w && ampmOk a b
  | _ => false

/-- The final-format test `/^\d{1,2}:\d{2}(\s?(AM|PM))?$/i` (scripts.js:166). -/
def colonMatch (l : List Char) : Bool :=
  match l with
  | c1 :: c2 :: c3 :: c4 :: rest =>
    if c2 == ':' then isDigitChar c1 && isDigitChar c3 && isDigitChar c4 && colonTail rest
    else
      match rest with
      | c5 :: rest2 =>
        (c3 == ':') && isDigitChar c1 && isDigitChar c2 && isDigitChar c4 && isDigitChar c5
          && colonTail rest2
      | [] => false
  | _ => false

/-- String branch of `normalizeTime` (scripts.js:161-170): collapse whitespace
and trim; return ranges containing "to" as-is; rewrite the dotted form; return
the final format upper-cased when it matches, and the string itself otherwise. -/
def normStrL (l : List Char) : List Char :=
  let t := cleanL l
  if hasToTest t then t
  else
    let t2 := dotRewrite t
    if colonMatch t2 then t2.map upperChar else t2

/-- String-valued wrapper of `normStrL`. -/
def normStr (s : String) : String := ⟨normStrL s.data⟩

/-- Kernel-computable product of rationals (the library `*` on `ℚ` is
irreducible; this is extensionally the same operation, see `ratMul_eq`). -/
def ratMul (a b : ℚ) : ℚ := mkRat (a.num * b.num) (a.den * b.den)

/-- Kernel-computable sum of rationals. -/
def ratAdd (a b : ℚ) : ℚ :=
  mkRat (a.num * (b.den : ℤ) + b.num * (a.den : ℤ)) (a.den * b.den)

/-- Kernel-computable difference of rationals. -/
def ratSub (a b : ℚ) : ℚ :=
  mkRat (a.num * (b.den : ℤ) - b.num * (a.den : ℤ)) (a.den * b.den)

/-- JS `Math.floor` on a rational value. -/
def jsFloor (q : ℚ) : ℤ := Rat.floor q

/-- JS `Math.round` on a rational value: `Math.round` rounds half-way cases
towards positive infinity, i.e. it is the floor of `q + 1/2`. -/
def jsRound (q : ℚ) : ℤ := Rat.floor (ratAdd q (mkRat 1 2))

/-- Embeds `formatTime`s minute part: `mm.toString().padStart(2, "0")`. -/
def pad2 (n : ℕ) : String := if n < 10 then "0" ++ toString n else toString n

/-- Embeds `formatTime(hh, mm)` (scripts.js:173-177). -/
def formatTime (hh mm : ℕ) : String :=
  toString (if hh % 12 = 0 then 12 else hh % 12) ++ ":" ++ pad2 mm ++ " "
    ++ (if 12 ≤ hh then "PM" else "AM")

/-- Rendering of a JS number that reaches `t.toString()` (a number outside both
recognized ranges).  Exact JS float-to-string rendering is not modelled: the
development only uses that this is some fixed total function, and no theorem
below depends on its output. -/
def numToString (q : ℚ) : String :=
  toString q.num ++ (if q.den == 1 then "" else "/" ++ toString q.den)

/-- Embeds `normalizeTime` (scripts.js:144-171). -/
def normalizeTime (t : Cell) : String :=
  match t with
  | .empty => ""
  | .str s => if s == "" then "" else normStr s
  | .num q =>
    if 0 ≤ q ∧ q < 1 then
      let totalMinutes := (jsRound (ratMul q 1440)).toNat
      formatTime (totalMinutes / 60) (totalMinutes % 60)
    else if 1 < q ∧ q < 24 then
      formatTime (jsFloor q).toNat (jsRound (ratMul (ratSub q (mkRat (jsFloor q) 1)) 60)).toNat
    else normStr (numToString q)

/-- Parse mode, the `mode` string `"regular" | "friday"` (scripts.js:87). -/
inductive Mode where
  | regular : Mode
  | friday : Mode
deriving DecidableEq

/-- Route record as built by `parseSchedule` (scripts.js:116-122); `display` is
filled in by the post-pass (scripts.js:136). -/
structure Route where
  code : String
  name : String
  details : String
  toDSC : List String
  fromDSC : List String
  display : String
deriving DecidableEq

/-- State of the row loop: the `mode` flag, the `current` reference and the two
accumulator arrays.  In JS `current` aliases the most recently pushed element
of one of the arrays; it is modelled by remembering which side that element
lives in (it is always the last element of that side). -/
structure PState where
  mode : Mode
  current : Option Mode
  regular : List Route
  friday : List Route
deriving DecidableEq

/-- Initial loop state (scripts.js:87-91). -/
def initState : PState := { mode := .regular, current := none, regular := [], friday := [] }

/-- Cell rendered by `(row[k] || "").toString()`: falsy cells (`undefined`,
`""`, `0`) give `""`. -/
def cellStr (c : Cell) : String :=
  match c with
  | .empty => ""
  | .str s => s
  | .num q => if q == 0 then "" else numToString q

/-- Trimmed string form of column 0: `(row[0] || "").toString().trim()`. -/
def rowC0 (row : List Cell) : String := jsTrim (cellStr (row.getD 0 .empty))

/-- Raw column 1, `row[1]`. -/
def rowC1 (row : List Cell) : Cell := row.getD 1 .empty

/-- Trimmed string form of column 2. -/
def rowC2 (row : List Cell) : String := jsTrim (cellStr (row.getD 2 .empty))

/-- Trimmed string form of column 3. -/
def rowC3 (row : List Cell) : String := jsTrim (cellStr (row.getD 3 .empty))

/-- Raw column 4, `row[4]`. -/
def rowC4 (row : List Cell) : Cell := row.getD 4 .empty

/-- All-empty row test `!c0 && !c1 && !c2 && !c3 && !c4` (scripts.js:101). -/
def skipRow (row : List Cell) : Bool :=
  rowC0 row == "" && !(rowC1 row).truthy && rowC2 row == "" && rowC3 row == ""
    && !(rowC4 row).truthy

/-- Route object created by a route-opening row (scripts.js:116-124). -/
def openedRoute (row : List Cell) : Route :=
  { code := rowC0 row
    name := rowC2 row
    details := rowC3 row
    toDSC := if (rowC1 row).truthy then [normalizeTime (rowC1 row)] else []
    fromDSC := if (rowC4 row).truthy then [normalizeTime (rowC4 row)] else []
    display := "" }

/-- Time pushes of a continuation row onto a route (scripts.js:130-131). -/
def pushTimes (c1 c4 : Cell) (r : Route) : Route :=
  let r1 := if c1.truthy then { r with toDSC := r.toDSC ++ [normalizeTime c1] } else r
  if c4.truthy then { r1 with fromDSC := r1.fromDSC ++ [normalizeTime c4] } else r1

/-- Update of the last element of a list, modelling in-place mutation of the
aliased `current` object inside its array. -/
def modifyLast {α : Type u} (f : α → α) : List α → List α
  | [] => []
  | [a] => [f a]
  | a :: b :: rest => a :: modifyLast f (b :: rest)

/-- One iteration of the row loop of `parseSchedule` (scripts.js:93-133). -/
def stepRow (s : PState) (row : List Cell) : PState :=
  if skipRow row then s
  else if fridayMarkerTest (rowC0 row) then { s with mode := .friday, current := none }
  else if headerTest (rowC0 row) || detailsTest (rowC3 row) then { s with current := none }
  else if routeCodeTest (rowC0 row) then
    if s.mode = .friday then
      { s with friday := s.friday ++ [openedRoute row], current := some .friday }
    else
      { s with regular := s.regular ++ [openedRoute row], current := some .regular }
  else
    match s.current with
    | some side =>
      if rowC0 row = "" then
        if side = .friday then
          { s with friday := modifyLast (pushTimes (rowC1 row) (rowC4 row)) s.friday }
        else
          { s with regular := modifyLast (pushTimes (rowC1 row) (rowC4 row)) s.regular }
      else s
    | none => s

/-- Insertion-ordered set accumulation, the semantics of
`Array.from(new Set(xs))` (scripts.js:137-138). -/
def dedupGo (acc : List String) : List String → List String
  | [] => acc
  | x :: xs => dedupGo (if acc.contains x then acc else acc ++ [x]) xs

/-- Embeds `Array.from(new Set(l))`. -/
def jsSetDedup (l : List String) : List String := dedupGo [] l

/-- Derived display label (scripts.js:136). -/
def displayOf (r : Route) : String :=
  jsTrim (r.code ++ (if r.name == "" then "" else " — " ++ r.name))

/-- Post-pass over one accumulated route (scripts.js:135-139). -/
def postRoute (r : Route) : Route :=
  { r with display := displayOf r, toDSC := jsSetDedup r.toDSC, fromDSC := jsSetDedup r.fromDSC }

/-- Parser output `{regular, friday}` (scripts.js:141). -/
structure ScheduleSet where
  regular : List Route
  friday : List Route
deriving DecidableEq

/-- The row loop of `parseSchedule` over all rows. -/
def parseLoop (rows : List (List Cell)) : PState := rows.foldl stepRow initState

/-- Embeds `parseSchedule` (scripts.js:84-142): the row loop followed by the
post-pass applied to every accumulated route. -/
def parseSchedule (rows : List (List Cell)) : ScheduleSet :=
  { regular := (parseLoop rows).regular.map postRoute
    friday := (parseLoop rows).friday.map postRoute }

/-- Contiguous-substring test, JS `String.prototype.includes` on char lists. -/
def isInfixL (needle : List Char) : List Char → Bool
  | [] => needle.isPrefixOf []
  | c :: cs => needle.isPrefixOf (c :: cs) || isInfixL needle cs

/-- Search haystack of a route (scripts.js:210-218): code, name, details and
all times, space-joined. -/
def hayOf (r : Route) : String :=
  String.intercalate " " ([r.code, r.name, r.details] ++ r.toDSC ++ r.fromDSC)

/-- Filtering logic of `render` (scripts.js:198-221): the exact-code filter when
a code is selected, then the lower-cased free-text containment filter when the
query is non-empty. -/
def renderFilter (list : List Route) (selectedCode searchValue : String) : List Route :=
  let q := lowerStr searchValue
  let l1 := if selectedCode == "" then list else list.filter (fun r => r.code == selectedCode)
  if q == "" then l1
  else l1.filter (fun r => isInfixL q.data (lowerStr (hayOf r)).data)

/-- JS `String.prototype.startsWith`. -/
def jsStartsWith (s p : String) : Bool := p.data.isPrefixOf s.data

/-- Friday badge condition of `routeCard` (scripts.js:243): derived from the
route code only, `r.code.startsWith("F")`. -/
def badgeIsFriday (r : Route) : Bool := jsStartsWith r.code "F"

/-! ### Helper lemmas -/

theorem fridayMarkerTest_empty : fridayMarkerTest "" = false := by decide

theorem headerTest_empty : headerTest "" = false := by decide

theorem routeCodeTest_empty : routeCodeTest "" = false := by decide

theorem routeCodeTest_ne_empty {s : String} (h : routeCodeTest s = true) : s ≠ "" := by
  intro he
  subst he
  exact absurd h (by decide)

theorem modifyLast_eq_self {α : Type u} {f : α → α} (hf : ∀ a, f a = a) :
    ∀ l : List α, modifyLast f l = l
  | [] => rfl
  | [a] => by simp [modifyLast, hf a]
  | a :: b :: rest => by
    rw [modifyLast, modifyLast_eq_self hf (b :: rest)]

theorem pushTimes_toDSC (c1 c4 : Cell) (r : Route) :
    (pushTimes c1 c4 r).toDSC = r.toDSC ++ (if c1.truthy then [normalizeTime c1] else []) := by
  unfold pushTimes
  by_cases h1 : c1.truthy <;> by_cases h4 : c4.truthy <;> simp [h1, h4]

theorem pushTimes_fromDSC (c1 c4 : Cell) (r : Route) :
    (pushTimes c1 c4 r).fromDSC = r.fromDSC ++ (if c4.truthy then [normalizeTime c4] else []) := by
  unfold pushTimes
  by_cases h1 : c1.truthy <;> by_cases h4 : c4.truthy <;> simp [h1, h4]

/-! ### C1: the classifier scenario -/

/-- Rows of the classifier scenario of the spec (§8.5): a Friday marker, a blank
row, a route-opening row and a continuation row. -/
def demoRows : List (List Cell) :=
  [[.str "Friday Schedule"], [],
   [.str "R1", .str "08:00", .str "Main Route", .str "Via X", .num (mkRat 3 4)],
   [.str "", .str "09:00", .str "", .str "", .num (mkRat 4 5)]]

/-- C1 (counterexample): on the scenario rows the parsed Friday route does not
have `toDSC = ["8:00 AM", "9:00 AM"]` as the claim states — the string cells
`"08:00"`/`"09:00"` match the final-format test and pass through unchanged. -/
theorem C1_counterexample :
    (parseSchedule demoRows).friday.map Route.toDSC ≠ [["8:00 AM", "9:00 AM"]] := by decide

/-- C1 (amended): parsing the scenario rows yields `regular = []` and exactly one
Friday route with code `"R1"`, name `"Main Route"`, details `"Via X"`,
`toDSC = ["08:00", "09:00"]` (string-typed times are returned unchanged by
`normalizeTime`) and `fromDSC = ["6:00 PM", "7:12 PM"]` (the numeric day
fractions 0.75 and 0.8 are formatted). -/
theorem C1_parse_demo :
    parseSchedule demoRows =
      { regular := []
        friday := [{ code := "R1", name := "Main Route", details := "Via X"
                     toDSC := ["08:00", "09:00"], fromDSC := ["6:00 PM", "7:12 PM"]
                     display := "R1 — Main Route" }] } := by decide

/-! ### C9: string passthrough -/

/-- C9: `normalizeTime` on string input never fails (it is a total function into
strings by construction); a range containing "to" is returned unchanged, and the
dotted form `6.05pm` is rewritten to `6:05 PM`. -/
theorem C9_string_passthrough :
    normalizeTime (.str "5:30 to 6:00 PM") = "5:30 to 6:00 PM"
    ∧ normalizeTime (.str "6.05pm") = "6:05 PM" := by decide

/-! ### C8: the silently ignored rows leave the state unchanged -/

/-- C8: a row whose (trimmed, stringified) cell 0 is non-empty but matches none
of the Friday-marker, header or route-code patterns, and whose cell 3 does not
match the route-details pattern, leaves the whole parser state unchanged. -/
theorem C8_ignored_row_frame (s : PState) (row : List Cell)
    (h0 : rowC0 row ≠ "")
    (h1 : fridayMarkerTest (rowC0 row) = false)
    (h2 : headerTest (rowC0 row) = false)
    (h3 : routeCodeTest (rowC0 row) = false)
    (h4 : detailsTest (rowC3 row) = false) :
    stepRow s row = s := by
  have hskip : skipRow row = false := by
    unfold skipRow
    rw [beq_eq_false_iff_ne.mpr h0]
    rfl
  unfold stepRow
  cases hc : s.current with
  | none => simp [hskip, h1, h2, h3, h4]
  | some side => simp [hskip, h1, h2, h3, h4, h0]

/-- C8 (witness): a concrete ignored row (`cell 0 = "XYZ"`) leaves a concrete
non-trivial state untouched. -/
theorem C8_witness :
    stepRow
      { mode := .friday, current := some .regular
        regular := [{ code := "R1", name := "n", details := "d", toDSC := ["08:00"]
                      fromDSC := [], display := "" }]
        friday := [] }
      [.str "XYZ", .str "10:00"] =
      { mode := .friday, current := some .regular
        regular := [{ code := "R1", name := "n", details := "d", toDSC := ["08:00"]
                      fromDSC := [], display := "" }]
        friday := [] } :=
  C8_ignored_row_frame _ _ (by decide) (by decide) (by decide) (by decide) (by decide)

/-! ### C3: which cells count as non-empty for the time pushes -/

/-- C3 (counterexample): the claim states that the number 0 counts as non-empty,
so that a route-opening row with cell 1 equal to the number 0 would push
`normalizeTime(0) = "12:00 AM"` onto `toDSC`.  The code tests JS truthiness
(`if (c1)`), for which 0 is falsy: the parsed route's `toDSC` is empty. -/
theorem C3_counterexample :
    (parseSchedule [[.str "R1", .num 0, .str "", .str "", .num 0]]).regular.map Route.toDSC
        = [[]]
    ∧ (parseSchedule [[.str "R1", .num 0, .str "", .str "", .num 0]]).regular.map Route.toDSC
        ≠ [[normalizeTime (.num 0)]]
    ∧ normalizeTime (.num 0) = "12:00 AM" := by decide

/-- C3 (amended): on a route-opening row the new route's `toDSC`/`fromDSC` hold
exactly the normalization of cells 1 and 4 when these are truthy (JS truthiness:
the number 0, the empty string and a missing cell count as empty, everything
else as non-empty), and the route is appended to the partition selected by the
mode; on a continuation row the truthy cells 1 and 4 are appended, normalized,
to the current route's lists. -/
theorem C3_truthy_time_pushes (s : PState) (row : List Cell) :
    (fridayMarkerTest (rowC0 row) = false → headerTest (rowC0 row) = false →
     detailsTest (rowC3 row) = false → routeCodeTest (rowC0 row) = true →
     skipRow row = false →
      ((openedRoute row).toDSC
          = (if (rowC1 row).truthy then [normalizeTime (rowC1 row)] else [])
        ∧ (openedRoute row).fromDSC
          = (if (rowC4 row).truthy then [normalizeTime (rowC4 row)] else [])
        ∧ (if s.mode = Mode.friday
            then (stepRow s row).friday = s.friday ++ [openedRoute row]
              ∧ (stepRow s row).regular = s.regular
            else (stepRow s row).regular = s.regular ++ [openedRoute row]
              ∧ (stepRow s row).friday = s.friday)))
    ∧ (∀ side, s.current = some side → rowC0 row = "" → detailsTest (rowC3 row) = false →
      ((∀ r : Route,
          (pushTimes (rowC1 row) (rowC4 row) r).toDSC
            = r.toDSC ++ (if (rowC1 row).truthy then [normalizeTime (rowC1 row)] else [])
          ∧ (pushTimes (rowC1 row) (rowC4 row) r).fromDSC
            = r.fromDSC ++ (if (rowC4 row).truthy then [normalizeTime (rowC4 row)] else []))
        ∧ (if side = Mode.friday
            then (stepRow s row).friday
                = modifyLast (pushTimes (rowC1 row) (rowC4 row)) s.friday
              ∧ (stepRow s row).regular = s.regular
            else (stepRow s row).regular
                = modifyLast (pushTimes (rowC1 row) (rowC4 row)) s.regular
              ∧ (stepRow s row).friday = s.friday))) := by
  constructor
  · intro h1 h2 h4 hrc hskip
    refine ⟨rfl, rfl, ?_⟩
    unfold stepRow
    cases hm : s.mode <;> simp [hskip, h1, h2, h4, hrc, hm]
  · intro side hcur h0 h4
    have hpush : ∀ r : Route,
        (pushTimes (rowC1 row) (rowC4 row) r).toDSC
          = r.toDSC ++ (if (rowC1 row).truthy then [normalizeTime (rowC1 row)] else [])
        ∧ (pushTimes (rowC1 row) (rowC4 row) r).fromDSC
          = r.fromDSC ++ (if (rowC4 row).truthy then [normalizeTime (rowC4 row)] else []) :=
      fun r => ⟨pushTimes_toDSC _ _ r, pushTimes_fromDSC _ _ r⟩
    refine ⟨hpush, ?_⟩
    by_cases hskip : skipRow row = true
    · -- the all-empty row is skipped; both cells are falsy, so the pushes are no-ops
      have h1f : (rowC1 row).truthy = false := by
        unfold skipRow at hskip
        rcases Bool.and_eq_true_iff.mp hskip with ⟨hl, _⟩
        rcases Bool.and_eq_true_iff.mp hl with ⟨hl2, _⟩
        rcases Bool.and_eq_true_iff.mp hl2 with ⟨hl3, _⟩
        rcases Bool.and_eq_true_iff.mp hl3 with ⟨_, hr⟩
        simpa using hr
      have h4f : (rowC4 row).truthy = false := by
        unfold skipRow at hskip
        rcases Bool.and_eq_true_iff.mp hskip with ⟨_, hr⟩
        simpa using hr
      have hid : ∀ r : Route, pushTimes (rowC1 row) (rowC4 row) r = r := by
        intro r
        unfold pushTimes
        rw [h1f, h4f]
        simp
      have hml : ∀ l : List Route, modifyLast (pushTimes (rowC1 row) (rowC4 row)) l = l :=
        modifyLast_eq_self hid
      have hstep : stepRow s row = s := by
        unfold stepRow
        simp [hskip]
      cases hside : side <;> simp [hside, hstep, hml]
    · have hskipf : skipRow row = false := Bool.eq_false_iff.mpr hskip
      have hmk : fridayMarkerTest (rowC0 row) = false := by rw [h0]; exact fridayMarkerTest_empty
      have hhd : headerTest (rowC0 row) = false := by rw [h0]; exact headerTest_empty
      have hrc : routeCodeTest (rowC0 row) = false := by rw [h0]; decide
      unfold stepRow
      cases hside : side <;>
        simp [hskipf, h4, h0, hcur, hside, fridayMarkerTest_empty, headerTest_empty,
          routeCodeTest_empty]

/-- C3 (witness): the amended statement applied to a concrete opening row and a
concrete continuation row. -/
theorem C3_witness :
    ((openedRoute [.str "R9", .str "7:30", .str "X", .str "Y"]).toDSC
        = (if (rowC1 [.str "R9", .str "7:30", .str "X", .str "Y"]).truthy
            then [normalizeTime (rowC1 [.str "R9", .str "7:30", .str "X", .str "Y"])] else [])
      ∧ (openedRoute [.str "R9", .str "7:30", .str "X", .str "Y"]).fromDSC
        = (if (rowC4 [.str "R9", .str "7:30", .str "X", .str "Y"]).truthy
            then [normalizeTime (rowC4 [.str "R9", .str "7:30", .str "X", .str "Y"])] else [])
      ∧ (if (initState).mode = Mode.friday
          then (stepRow initState [.str "R9", .str "7:30", .str "X", .str "Y"]).friday
              = initState.friday ++ [openedRoute [.str "R9", .str "7:30", .str "X", .str "Y"]]
            ∧ (stepRow initState [.str "R9", .str "7:30", .str "X", .str "Y"]).regular
              = initState.regular
          else (stepRow initState [.str "R9", .str "7:30", .str "X", .str "Y"]).regular
              = initState.regular ++ [openedRoute [.str "R9", .str "7:30", .str "X", .str "Y"]]
            ∧ (stepRow initState [.str "R9", .str "7:30", .str "X", .str "Y"]).friday
              = initState.friday)) :=
  (C3_truthy_time_pushes initState [.str "R9", .str "7:30", .str "X", .str "Y"]).1
    (by decide) (by decide) (by decide) (by decide) (by decide)

/-! ### C2: there is no `isFriday` field; the badge depends on the code only -/

/-- C2 (counterexample): route records carry no `isFriday` field; the only
Friday boolean the code derives per-route is the badge
`r.code.startsWith("F")` of `routeCard`.  For a route with code `"R1"` collected
in Friday mode, the claimed iff demands `true`, but the badge is `false`. -/
theorem C2_counterexample :
    (parseSchedule [[.str "Friday Schedule"], [.str "R1"]]).friday.map badgeIsFriday = [false]
    ∧ (parseSchedule [[.str "Friday Schedule"], [.str "R1"]]).friday.map Route.code = ["R1"] := by
  decide

/-- C2 (amended): for every route produced by `parseSchedule` (either
partition), the rendered Friday badge is true iff the route's code begins with
the capital letter `F` — irrespective of the parse mode the route was collected
under. -/
theorem C2_badge_from_code (rows : List (List Cell)) (r : Route)
    (_h : r ∈ (parseSchedule rows).regular ∨ r ∈ (parseSchedule rows).friday) :
    badgeIsFriday r = true ↔ r.code.data.head? = some 'F' := by
  unfold badgeIsFriday jsStartsWith
  cases hd : r.code.data with
  | nil => simp [List.isPrefixOf]
  | cons c cs =>
    show (List.isPrefixOf ['F'] (c :: cs)) = true ↔ _
    simp [List.isPrefixOf]
    exact eq_comm

set_option maxRecDepth 4000 in
/-- C2 (witness): the amended statement applied to the Friday-mode route with
code `"R1"`. -/
theorem C2_witness :
    badgeIsFriday
        { code := "R1", name := "", details := "", toDSC := [], fromDSC := []
          display := "R1" } = true
      ↔ ({ code := "R1", name := "", details := "", toDSC := [], fromDSC := []
           display := "R1" } : Route).code.data.head? = some 'F' :=
  C2_badge_from_code [[.str "Friday Schedule"], [.str "R1"]] _ (Or.inr (by decide))

/-! ### C7: the query/filter contract -/

/-- Specification-side keep predicate of the filter contract (§4.3): a route is
kept iff (no code is selected, or its code equals the selection exactly) and
(the query is empty, or the lower-cased haystack contains the lower-cased
query). -/
def specKeep (selectedCode searchValue : String) (r : Route) : Bool :=
  (selectedCode == "" || r.code == selectedCode)
    && (searchValue == "" || isInfixL (lowerStr searchValue).data (lowerStr (hayOf r)).data)

theorem isInfixL_iff (n : List Char) : ∀ l : List Char, isInfixL n l = true ↔ n <:+: l
  | [] => by
    simp [isInfixL, List.isPrefixOf_iff_prefix]
  | c :: cs => by
    rw [isInfixL]
    simp [List.isPrefixOf_iff_prefix, isInfixL_iff n cs, List.infix_cons_iff]

theorem lowerStr_eq_empty_iff (s : String) : lowerStr s = "" ↔ s = "" := by
  cases s with
  | mk data =>
    cases data <;> simp [lowerStr, String.ext_iff]

/-- C7: the filtering logic of `render` is an order-preserving subsequence
filter, keeping exactly the routes that pass the code filter and the
case-insensitive substring query filter, composed by conjunction. -/
theorem C7_filter_contract (list : List Route) (sc sv : String) :
    renderFilter list sc sv = list.filter (specKeep sc sv)
    ∧ (renderFilter list sc sv).Sublist list
    ∧ ∀ r : Route, specKeep sc sv r = true
        ↔ ((sc = "" ∨ r.code = sc)
            ∧ (sv = "" ∨ (lowerStr sv).data <:+: (lowerStr (hayOf r)).data)) := by
  have hchar : ∀ r : Route, specKeep sc sv r = true
      ↔ ((sc = "" ∨ r.code = sc)
          ∧ (sv = "" ∨ (lowerStr sv).data <:+: (lowerStr (hayOf r)).data)) := by
    intro r
    unfold specKeep
    simp [isInfixL_iff]
  have hq : (lowerStr sv == "") = (sv == "") := by
    by_cases hsv : sv = ""
    · rw [hsv]; rfl
    · have : ¬lowerStr sv = "" := fun h => hsv ((lowerStr_eq_empty_iff sv).mp h)
      rw [beq_eq_false_iff_ne.mpr this, beq_eq_false_iff_ne.mpr hsv]
  have hmain : renderFilter list sc sv = list.filter (specKeep sc sv) := by
    simp only [renderFilter]
    rw [hq]
    by_cases hsv : sv = ""
    · rw [if_pos (by rw [hsv]; rfl)]
      by_cases hsc : sc = ""
      · rw [if_pos (by rw [hsc]; rfl)]
        have hK : ∀ r : Route, specKeep sc sv r = true := fun r => by
          simp [specKeep, hsc, hsv]
        symm
        exact (List.filter_congr fun r _hr => hK r).trans (List.filter_true list)
      · rw [if_neg (by simp [hsc])]
        exact List.filter_congr fun r _hr => by simp [specKeep, hsc, hsv]
    · rw [if_neg (by simp [hsv])]
      by_cases hsc : sc = ""
      · rw [if_pos (by rw [hsc]; rfl)]
        exact List.filter_congr fun r _hr => by simp [specKeep, hsc, hsv]
      · rw [if_neg (by simp [hsc])]
        rw [List.filter_filter]
        refine List.filter_congr fun r _hr => ?_
        have hK : specKeep sc sv r
            = ((r.code == sc) && isInfixL (lowerStr sv).data (lowerStr (hayOf r)).data) := by
          unfold specKeep
          rw [beq_eq_false_iff_ne.mpr hsc, beq_eq_false_iff_ne.mpr hsv]
          simp
        rw [hK, Bool.and_comm]
  refine ⟨hmain, ?_, hchar⟩
  rw [hmain]
  exact List.filter_sublist list

/-! ### C6: deduplication keeps first occurrences in order -/

/-- Specification-side first-occurrence deduplication (§3, §8.2): keep the
first occurrence of each value and drop all its later repeats. -/
def specFirstOcc : List String → List String
  | [] => []
  | x :: xs => x :: specFirstOcc (xs.filter (fun y => !(y == x)))
termination_by l => l.length
decreasing_by exact Nat.lt_succ_of_le (List.length_filter_le _ _)

theorem dedupGo_eq : ∀ (l acc : List String),
    dedupGo acc l = acc ++ specFirstOcc (l.filter (fun y => !(acc.contains y)))
  | [], acc => by simp [dedupGo, specFirstOcc]
  | x :: xs, acc => by
    rw [dedupGo]
    by_cases hx : x ∈ acc
    · rw [if_pos (by simp [List.contains, hx]), dedupGo_eq xs acc]
      have : (x :: xs).filter (fun y => !(acc.contains y))
          = xs.filter (fun y => !(acc.contains y)) := by
        rw [List.filter_cons]
        simp [List.contains, hx]
      rw [this]
    · rw [if_neg (by simp [List.contains, hx]), dedupGo_eq xs (acc ++ [x])]
      have hcons : (x :: xs).filter (fun y => !(acc.contains y))
          = x :: xs.filter (fun y => !(acc.contains y)) := by
        rw [List.filter_cons]
        simp [List.contains, hx]
      rw [hcons, specFirstOcc, List.filter_filter]
      have : xs.filter (fun y => !(y == x) && !(acc.contains y))
          = xs.filter (fun y => !((acc ++ [x]).contains y)) :=
        List.filter_congr fun y _hy => by
          simp [List.contains, Bool.beq_eq_decide_eq, List.mem_append, List.mem_singleton,
            Bool.not_or, Bool.and_comm]
      rw [this, List.append_assoc]
      rfl

theorem jsSetDedup_eq_specFirstOcc (l : List String) : jsSetDedup l = specFirstOcc l := by
  unfold jsSetDedup
  rw [dedupGo_eq l []]
  have : l.filter (fun y => !(([] : List String).contains y)) = l := by
    have : l.filter (fun y => !(([] : List String).contains y)) = l.filter (fun _ => true) :=
      List.filter_congr fun y _hy => rfl
    rw [this, List.filter_true]
  rw [this, List.nil_append]

theorem specFirstOcc_good : ∀ (n : ℕ) (l : List String), l.length ≤ n →
    (specFirstOcc l).Sublist l ∧ (specFirstOcc l).Nodup ∧ ∀ x, x ∈ specFirstOcc l ↔ x ∈ l := by
  intro n
  induction n with
  | zero =>
    intro l hl
    have : l = [] := List.eq_nil_of_length_eq_zero (Nat.le_zero.mp hl)
    subst this
    simp [specFirstOcc]
  | succ n ih =>
    intro l hl
    match l with
    | [] => simp [specFirstOcc]
    | x :: xs =>
      rw [specFirstOcc]
      have hlen : (xs.filter (fun y => !(y == x))).length ≤ n :=
        le_trans (List.length_filter_le _ _) (Nat.le_of_succ_le_succ hl)
      obtain ⟨hsub, hnd, hmem⟩ := ih _ hlen
      refine ⟨List.Sublist.cons₂ x (hsub.trans (List.filter_sublist xs)), ?_, ?_⟩
      · rw [List.nodup_cons]
        refine ⟨fun hx => ?_, hnd⟩
        have := (hmem x).mp hx
        have := List.of_mem_filter this
        simp at this
      · intro y
        by_cases hyx : y = x
        · subst hyx
          simp
        · simp only [List.mem_cons, hmem, List.mem_filter]
          constructor
          · rintro (he | ⟨hy, _⟩)
            · exact Or.inl he
            · exact Or.inr hy
          · rintro (he | hy)
            · exact Or.inl he
            · exact Or.inr ⟨hy, by simp [hyx]⟩

theorem nodup_count_eq {l : List String} (hl : l.Nodup) (x : String) :
    l.count x = if x ∈ l then 1 else 0 := by
  by_cases hx : x ∈ l
  · rw [if_pos hx]
    exact List.count_eq_one_of_mem hl hx
  · rw [if_neg hx]
    exact List.count_eq_zero_of_not_mem hx

/-- C6: after `parseSchedule` completes, every route's `toDSC`/`fromDSC` equal
the first-occurrence deduplication of the sequence accumulated by the row loop,
an order-preserving subsequence containing each distinct value exactly once. -/
theorem C6_dedup_first_seen :
    (∀ rows : List (List Cell),
      (parseSchedule rows).regular.map Route.toDSC
          = (parseLoop rows).regular.map (fun r => specFirstOcc r.toDSC)
        ∧ (parseSchedule rows).regular.map Route.fromDSC
          = (parseLoop rows).regular.map (fun r => specFirstOcc r.fromDSC)
        ∧ (parseSchedule rows).friday.map Route.toDSC
          = (parseLoop rows).friday.map (fun r => specFirstOcc r.toDSC)
        ∧ (parseSchedule rows).friday.map Route.fromDSC
          = (parseLoop rows).friday.map (fun r => specFirstOcc r.fromDSC))
    ∧ (∀ l : List String,
        jsSetDedup l = specFirstOcc l
        ∧ (specFirstOcc l).Sublist l
        ∧ (specFirstOcc l).Nodup
        ∧ ∀ x, (specFirstOcc l).count x = if x ∈ l then 1 else 0) := by
  constructor
  · intro rows
    refine ⟨?_, ?_, ?_, ?_⟩ <;>
      simp [parseSchedule, postRoute, List.map_map, Function.comp,
        jsSetDedup_eq_specFirstOcc]
  · intro l
    obtain ⟨hsub, hnd, _hmem⟩ := specFirstOcc_good l.length l le_rfl
    refine ⟨jsSetDedup_eq_specFirstOcc l, hsub, hnd, ?_⟩
    intro x
    rw [nodup_count_eq hnd x]
    by_cases hx : x ∈ l
    · rw [if_pos hx, if_pos (((specFirstOcc_good l.length l le_rfl).2.2 x).mpr hx)]
    · rw [if_neg hx, if_neg (fun hc => hx (((specFirstOcc_good l.length l le_rfl).2.2 x).mp hc))]

/-! ### C5: the partition invariant

The row loop is instrumented with ghost data: every accumulated route is tagged
with the parse mode at the moment its opening row was processed.  The
instrumented loop erases to the real one (`parseLoopG_erase`), and the tags in
each partition are invariant. -/

/-- Ghost-instrumented loop state: routes tagged with their opening mode. -/
structure GState where
  mode : Mode
  current : Option Mode
  regular : List (Mode × Route)
  friday : List (Mode × Route)
deriving DecidableEq

/-- Ghost version of `pushTimes`, acting on the route and keeping the tag. -/
def pushTimesG (c1 c4 : Cell) (p : Mode × Route) : Mode × Route :=
  (p.1, pushTimes c1 c4 p.2)

/-- Ghost-instrumented `stepRow`: identical dynamics, tagging each opened route
with the current mode. -/
def stepRowG (s : GState) (row : List Cell) : GState :=
  if skipRow row then s
  else if fridayMarkerTest (rowC0 row) then { s with mode := .friday, current := none }
  else if headerTest (rowC0 row) || detailsTest (rowC3 row) then { s with current := none }
  else if routeCodeTest (rowC0 row) then
    if s.mode = .friday then
      { s with friday := s.friday ++ [(s.mode, openedRoute row)], current := some .friday }
    else
      { s with regular := s.regular ++ [(s.mode, openedRoute row)], current := some .regular }
  else
    match s.current with
    | some side =>
      if rowC0 row = "" then
        if side = .friday then
          { s with friday := modifyLast (pushTimesG (rowC1 row) (rowC4 row)) s.friday }
        else
          { s with regular := modifyLast (pushTimesG (rowC1 row) (rowC4 row)) s.regular }
      else s
    | none => s

/-- Initial ghost state. -/
def initG : GState := { mode := .regular, current := none, regular := [], friday := [] }

/-- Ghost-instrumented row loop. -/
def parseLoopG (rows : List (List Cell)) : GState := rows.foldl stepRowG initG

/-- Forget the ghost tags. -/
def eraseG (s : GState) : PState :=
  { mode := s.mode, current := s.current
    regular := s.regular.map Prod.snd, friday := s.friday.map Prod.snd }

theorem map_snd_modifyLast (c1 c4 : Cell) : ∀ l : List (Mode × Route),
    (modifyLast (pushTimesG c1 c4) l).map Prod.snd
      = modifyLast (pushTimes c1 c4) (l.map Prod.snd)
  | [] => rfl
  | [_p] => rfl
  | p :: q :: rest => by
    have ih := map_snd_modifyLast c1 c4 (q :: rest)
    simp only [modifyLast, List.map_cons] at ih ⊢
    rw [ih]

theorem stepRowG_erase (s : GState) (row : List Cell) :
    eraseG (stepRowG s row) = stepRow (eraseG s) row := by
  unfold stepRow stepRowG
  by_cases hskip : skipRow row = true
  · simp [hskip, eraseG]
  · by_cases hmk : fridayMarkerTest (rowC0 row) = true
    · simp [hskip, hmk, eraseG]
    · by_cases hhd : (headerTest (rowC0 row) || detailsTest (rowC3 row)) = true
      · simp [hskip, hmk, hhd, eraseG]
      · have hor : (headerTest (rowC0 row) || detailsTest (rowC3 row)) = false :=
          Bool.eq_false_iff.mpr hhd
        rcases Bool.or_eq_false_iff.mp hor with ⟨hh1, hh2⟩
        by_cases hrc : routeCodeTest (rowC0 row) = true
        · cases hm : s.mode <;> simp [hskip, hmk, hh1, hh2, hrc, hm, eraseG]
        · cases hc : s.current with
          | none => simp [hskip, hmk, hh1, hh2, hrc, hc, eraseG]
          | some side =>
            by_cases h0 : rowC0 row = ""
            · cases side <;>
                simp [hskip, hmk, hh1, hh2, hrc, hc, h0, eraseG, map_snd_modifyLast,
                  fridayMarkerTest_empty, headerTest_empty, routeCodeTest_empty]
            · simp [hskip, hmk, hh1, hh2, hrc, hc, h0, eraseG]

theorem parseLoopG_erase (rows : List (List Cell)) :
    eraseG (parseLoopG rows) = parseLoop rows := by
  unfold parseLoopG parseLoop
  have key : ∀ (rs : List (List Cell)) (s : GState),
      eraseG (rs.foldl stepRowG s) = rs.foldl stepRow (eraseG s) := by
    intro rs
    induction rs with
    | nil => intro s; rfl
    | cons r rest ih =>
      intro s
      rw [List.foldl_cons, List.foldl_cons, ih, stepRowG_erase]
  exact key rows initG

/-- Tag invariant: every route in a partition is tagged with that partition's
mode. -/
def tagOk (s : GState) : Prop :=
  (∀ p ∈ s.regular, p.1 = Mode.regular) ∧ (∀ p ∈ s.friday, p.1 = Mode.friday)

theorem mem_modifyLast {α : Type u} (f : α → α) :
    ∀ (l : List α) (x : α), x ∈ modifyLast f l → x ∈ l ∨ ∃ y ∈ l, x = f y
  | [], x, h => absurd h (by simp [modifyLast])
  | [a], x, h => by
    simp [modifyLast] at h
    exact Or.inr ⟨a, by simp, h⟩
  | a :: b :: rest, x, h => by
    simp only [modifyLast, List.mem_cons] at h
    rcases h with h | h
    · exact Or.inl (by simp [h])
    · rcases mem_modifyLast f (b :: rest) x h with h2 | ⟨y, hy, hxy⟩
      · exact Or.inl (List.mem_cons_of_mem a h2)
      · exact Or.inr ⟨y, List.mem_cons_of_mem a hy, hxy⟩

theorem tagOk_step (s : GState) (row : List Cell) (h : tagOk s) : tagOk (stepRowG s row) := by
  obtain ⟨hr, hf⟩ := h
  unfold stepRowG
  by_cases hskip : skipRow row = true
  · simpa [hskip] using ⟨hr, hf⟩
  · by_cases hmk : fridayMarkerTest (rowC0 row) = true
    · simpa [hskip, hmk] using ⟨hr, hf⟩
    · by_cases hhd : (headerTest (rowC0 row) || detailsTest (rowC3 row)) = true
      · simpa [hskip, hmk, hhd] using ⟨hr, hf⟩
      · have hor : (headerTest (rowC0 row) || detailsTest (rowC3 row)) = false :=
          Bool.eq_false_iff.mpr hhd
        rcases Bool.or_eq_false_iff.mp hor with ⟨hh1, hh2⟩
        by_cases hrc : routeCodeTest (rowC0 row) = true
        · cases hm : s.mode with
          | friday =>
            simp only [hskip, hmk, hhd, hrc, hm, if_true, if_false, tagOk,
              Bool.false_eq_true, if_neg, ite_true, ite_false]
            constructor
            · simpa [hskip, hmk, hh1, hh2, hrc, hm] using hr
            · intro p hp
              simp [hskip, hmk, hh1, hh2, hrc, hm, List.mem_append] at hp
              rcases hp with hp | hp
              · exact hf p hp
              · rw [hp]
          | regular =>
            constructor
            · intro p hp
              simp [hskip, hmk, hh1, hh2, hrc, hm, List.mem_append] at hp
              rcases hp with hp | hp
              · exact hr p hp
              · rw [hp]
            · intro p hp
              simp [hskip, hmk, hh1, hh2, hrc, hm] at hp
              exact hf p hp
        · cases hc : s.current with
          | none => simpa [hskip, hmk, hh1, hh2, hrc, hc] using ⟨hr, hf⟩
          | some side =>
            by_cases h0 : rowC0 row = ""
            · cases side with
              | friday =>
                constructor
                · intro p hp
                  simp [hskip, hmk, hh1, hh2, hrc, hc, h0, fridayMarkerTest_empty, headerTest_empty,
                    routeCodeTest_empty] at hp
                  exact hr p hp
                · intro p hp
                  simp [hskip, hmk, hh1, hh2, hrc, hc, h0, fridayMarkerTest_empty, headerTest_empty,
                    routeCodeTest_empty] at hp
                  rcases mem_modifyLast _ _ _ hp with h2 | ⟨y, hy, hxy⟩
                  · exact hf p h2
                  · rw [hxy]
                    exact hf y hy
              | regular =>
                constructor
                · intro p hp
                  simp [hskip, hmk, hh1, hh2, hrc, hc, h0, fridayMarkerTest_empty, headerTest_empty,
                    routeCodeTest_empty] at hp
                  rcases mem_modifyLast _ _ _ hp with h2 | ⟨y, hy, hxy⟩
                  · exact hr p h2
                  · rw [hxy]
                    exact hr y hy
                · intro p hp
                  simp [hskip, hmk, hh1, hh2, hrc, hc, h0, fridayMarkerTest_empty, headerTest_empty,
                    routeCodeTest_empty] at hp
                  exact hf p hp
            · simpa [hskip, hmk, hh1, hh2, hrc, hc, h0] using ⟨hr, hf⟩

theorem tagOk_parseLoopG (rows : List (List Cell)) : tagOk (parseLoopG rows) := by
  unfold parseLoopG
  have key : ∀ (rs : List (List Cell)) (s : GState), tagOk s → tagOk (rs.foldl stepRowG s) := by
    intro rs
    induction rs with
    | nil => intro s hs; exact hs
    | cons r rest ih =>
      intro s hs
      rw [List.foldl_cons]
      exact ih _ (tagOk_step s r hs)
  refine key rows initG ⟨?_, ?_⟩ <;> simp [initG]

theorem stepRow_mode (s : PState) (row : List Cell) :
    (stepRow s row).mode = if fridayMarkerTest (rowC0 row) = true then Mode.friday else s.mode := by
  unfold stepRow
  by_cases hskip : skipRow row = true
  · have h0 : rowC0 row = "" := by
      unfold skipRow at hskip
      rcases Bool.and_eq_true_iff.mp hskip with ⟨hl, _⟩
      rcases Bool.and_eq_true_iff.mp hl with ⟨hl2, _⟩
      rcases Bool.and_eq_true_iff.mp hl2 with ⟨hl3, _⟩
      rcases Bool.and_eq_true_iff.mp hl3 with ⟨hc0, _⟩
      exact eq_of_beq hc0
    rw [if_pos hskip, h0, fridayMarkerTest_empty]
    simp
  · by_cases hmk : fridayMarkerTest (rowC0 row) = true
    · simp [hskip, hmk]
    · by_cases hhd : (headerTest (rowC0 row) || detailsTest (rowC3 row)) = true
      · simp [hskip, hmk, hhd]
      · have hor : (headerTest (rowC0 row) || detailsTest (rowC3 row)) = false :=
          Bool.eq_false_iff.mpr hhd
        rcases Bool.or_eq_false_iff.mp hor with ⟨hh1, hh2⟩
        by_cases hrc : routeCodeTest (rowC0 row) = true
        · cases hm : s.mode <;> simp [hskip, hmk, hh1, hh2, hrc, hm]
        · cases hc : s.current with
          | none => simp [hskip, hmk, hh1, hh2, hrc, hc]
          | some side =>
            by_cases h0 : rowC0 row = ""
            · cases side <;>
                simp [hskip, hmk, hh1, hh2, hrc, hc, h0, fridayMarkerTest_empty, headerTest_empty,
                  routeCodeTest_empty]
            · simp [hskip, hmk, hh1, hh2, hrc, hc, h0]

/-- C5: the partitions are determined by the parse mode at the opening row.  The
ghost-instrumented loop erases to the real one; every route in the `friday`
accumulator was opened in Friday mode and every route in `regular` in regular
mode (independently of its code); the mode starts as regular and a step
switches it to Friday exactly on rows whose cell 0 matches the marker (and it
never switches back). -/
theorem C5_partition_by_mode :
    (∀ rows : List (List Cell),
        (parseLoopG rows).regular.map Prod.snd = (parseLoop rows).regular
        ∧ (parseLoopG rows).friday.map Prod.snd = (parseLoop rows).friday
        ∧ (parseSchedule rows).regular = ((parseLoopG rows).regular.map Prod.snd).map postRoute
        ∧ (parseSchedule rows).friday = ((parseLoopG rows).friday.map Prod.snd).map postRoute)
    ∧ (∀ rows : List (List Cell), ∀ p ∈ (parseLoopG rows).friday, p.1 = Mode.friday)
    ∧ (∀ rows : List (List Cell), ∀ p ∈ (parseLoopG rows).regular, p.1 = Mode.regular)
    ∧ initState.mode = Mode.regular
    ∧ (∀ (s : PState) (row : List Cell),
        (stepRow s row).mode
          = if fridayMarkerTest (rowC0 row) = true then Mode.friday else s.mode) := by
  have herase : ∀ rows : List (List Cell),
      (parseLoopG rows).regular.map Prod.snd = (parseLoop rows).regular
      ∧ (parseLoopG rows).friday.map Prod.snd = (parseLoop rows).friday := by
    intro rows
    have h := parseLoopG_erase rows
    constructor
    · exact congrArg PState.regular h
    · exact congrArg PState.friday h
  refine ⟨?_, ?_, ?_, rfl, stepRow_mode⟩
  · intro rows
    obtain ⟨h1, h2⟩ := herase rows
    exact ⟨h1, h2, by rw [h1]; rfl, by rw [h2]; rfl⟩
  · intro rows
    exact (tagOk_parseLoopG rows).2
  · intro rows
    exact (tagOk_parseLoopG rows).1

/-- C5 (witness): in a concrete run, the route opened after the Friday marker is
tagged `friday`. -/
theorem C5_witness :
    (Mode.friday,
      ({ code := "R1", name := "", details := "", toDSC := [], fromDSC := []
         display := "" } : Route)).1 = Mode.friday :=
  C5_partition_by_mode.2.1 [[.str "Friday Schedule"], [.str "R1"]] _ (by decide)

/-! ### C4: the numeric branches of `normalizeTime`

Bridge lemmas identify the kernel-computable rational operations used in the
embedding with the library operations used to state the claim. -/

theorem ratMul_eq (a b : ℚ) : ratMul a b = a * b := by
  rw [ratMul, Rat.mkRat_eq_div]
  push_cast
  conv_rhs => rw [← Rat.num_div_den a, ← Rat.num_div_den b]
  rw [div_mul_div_comm]

theorem ratAdd_eq (a b : ℚ) : ratAdd a b = a + b := by
  rw [ratAdd, Rat.mkRat_eq_div]
  have ha : ((a.den : ℚ)) ≠ 0 := Nat.cast_ne_zero.mpr a.den_nz
  have hb : ((b.den : ℚ)) ≠ 0 := Nat.cast_ne_zero.mpr b.den_nz
  push_cast
  conv_rhs => rw [← Rat.num_div_den a, ← Rat.num_div_den b]
  rw [div_add_div _ _ ha hb]
  ring_nf

theorem ratSub_eq (a b : ℚ) : ratSub a b = a - b := by
  rw [ratSub, Rat.mkRat_eq_div]
  have ha : ((a.den : ℚ)) ≠ 0 := Nat.cast_ne_zero.mpr a.den_nz
  have hb : ((b.den : ℚ)) ≠ 0 := Nat.cast_ne_zero.mpr b.den_nz
  push_cast
  conv_rhs => rw [← Rat.num_div_den a, ← Rat.num_div_den b]
  rw [div_sub_div _ _ ha hb]
  ring_nf

theorem jsFloor_eq (q : ℚ) : jsFloor q = ⌊q⌋ := rfl

theorem jsRound_eq (q : ℚ) : jsRound q = round q := by
  unfold jsRound
  rw [ratAdd_eq, round_eq]
  have hhalf : (mkRat 1 2 : ℚ) = 1 / 2 := by
    rw [Rat.mkRat_eq_div]
    norm_num
  rw [hhalf]
  rfl

/-- Specification-side 12-hour hour rendering (§4.2): hour `h mod 12`, with 12
substituted when that is 0, so hours 0 and 12 (and the boundary value 24) all
render as `"12"`. -/
def specHour12 (h : ℕ) : String := if h % 12 = 0 then "12" else toString (h % 12)

/-- Specification-side zero-padded minute rendering. -/
def specPadMin (m : ℕ) : String := if m < 10 then "0" ++ toString m else toString m

/-- Specification-side 12-hour rendering of an hour/minute pair (§4.2): the
suffix is `AM` iff the 24-hour hour is below 12. -/
def specRender12 (h m : ℕ) : String :=
  specHour12 h ++ ":" ++ specPadMin m ++ " " ++ (if h < 12 then "AM" else "PM")

theorem formatTime_eq_specRender12 (h m : ℕ) : formatTime h m = specRender12 h m := by
  unfold formatTime specRender12 specHour12 specPadMin pad2
  have hsuffix : (if 12 ≤ h then "PM" else "AM") = (if h < 12 then "AM" else "PM") := by
    by_cases h12 : h < 12
    · rw [if_pos h12, if_neg (by omega)]
    · rw [if_neg h12, if_pos (by omega)]
  rw [hsuffix]
  by_cases hh : h % 12 = 0
  · rw [if_pos hh, if_pos hh]
    rfl
  · rw [if_neg hh, if_neg hh]

/-- C4: for day fractions in `[0, 1)`, `normalizeTime` renders
`round(t * 1440)` total minutes in 12-hour format; for bare hour values in
`(1, 24)` it renders hour `⌊t⌋` and minute `round((t - ⌊t⌋) * 60)`; and the
three round-trip examples of the spec hold. -/
theorem C4_numeric_branches :
    (∀ q : ℚ, 0 ≤ q → q < 1 →
        normalizeTime (.num q)
          = specRender12 ((round (q * 1440)).toNat / 60) ((round (q * 1440)).toNat % 60))
    ∧ (∀ q : ℚ, 1 < q → q < 24 →
        normalizeTime (.num q)
          = specRender12 (⌊q⌋).toNat (round ((q - (⌊q⌋ : ℚ)) * 60)).toNat)
    ∧ normalizeTime (.num (mkRat 1 2)) = "12:00 PM"
    ∧ normalizeTime (.num (mkRat 1 4)) = "6:00 AM"
    ∧ normalizeTime (.num (mkRat 37 2)) = "6:30 PM" := by
  refine ⟨?_, ?_, by decide, by decide, by decide⟩
  · intro q h0 h1
    simp only [normalizeTime]
    rw [if_pos ⟨h0, h1⟩]
    rw [ratMul_eq, jsRound_eq]
    have h1440 : q * (1440 : ℚ) = q * 1440 := rfl
    rw [formatTime_eq_specRender12]
  · intro q h1 h24
    simp only [normalizeTime]
    rw [if_neg (fun hc => absurd hc.2 (by linarith)), if_pos ⟨h1, h24⟩]
    rw [Rat.mkRat_one, ratSub_eq, ratMul_eq, jsRound_eq, jsFloor_eq,
      formatTime_eq_specRender12]

/-- C4 (witness): both universally quantified branches applied to concrete
inputs (0.3 and 2.5). -/
theorem C4_witness :
    normalizeTime (.num (mkRat 3 10))
        = specRender12 ((round ((mkRat 3 10 : ℚ) * 1440)).toNat / 60)
            ((round ((mkRat 3 10 : ℚ) * 1440)).toNat % 60)
    ∧ normalizeTime (.num (mkRat 5 2))
        = specRender12 (⌊(mkRat 5 2 : ℚ)⌋).toNat
            (round (((mkRat 5 2 : ℚ) - (⌊(mkRat 5 2 : ℚ)⌋ : ℚ)) * 60)).toNat :=
  ⟨C4_numeric_branches.1 (mkRat 3 10) (by decide) (by decide),
    C4_numeric_branches.2.1 (mkRat 5 2) (by decide) (by decide)⟩

/-! ### C10: idempotence of `normalizeTime`

Character-level lemmas about the ASCII case maps and character classes. -/

theorem charOfNat_toNat {n : ℕ} (h : n < 55296) : (Char.ofNat n).toNat = n := by
  unfold Char.ofNat
  rw [dif_pos (Or.inl h)]
  simp [Char.toNat, Char.ofNatAux, UInt32.toNat, BitVec.toNat_ofNatLt]

theorem ws_toNat {c : Char} (h : isWsChar c = true) :
    c.toNat = 32 ∨ c.toNat = 9 ∨ c.toNat = 10 ∨ c.toNat = 13 ∨ c.toNat = 11 ∨ c.toNat = 12 := by
  simp only [isWsChar, Bool.or_eq_true, beq_iff_eq] at h
  rcases h with ((((h | h) | h) | h) | h) | h <;> subst h <;> decide

theorem toNat_big_not_ws {c : Char} (h : 48 ≤ c.toNat) : isWsChar c = false := by
  cases hw : isWsChar c
  · rfl
  · exfalso
    rcases ws_toNat hw with h1 | h1 | h1 | h1 | h1 | h1 <;> omega

theorem digit_toNat {c : Char} (h : isDigitChar c = true) : 48 ≤ c.toNat ∧ c.toNat ≤ 57 := by
  simpa [isDigitChar] using h

theorem digit_not_ws {c : Char} (h : isDigitChar c = true) : isWsChar c = false :=
  toNat_big_not_ws (digit_toNat h).1

theorem lowerChar_eq_self {c : Char} (h : ¬(65 ≤ c.toNat ∧ c.toNat ≤ 90)) : lowerChar c = c := by
  unfold lowerChar
  rw [if_neg (by simpa using h)]

theorem upperChar_eq_self {c : Char} (h : ¬(97 ≤ c.toNat ∧ c.toNat ≤ 122)) : upperChar c = c := by
  unfold upperChar
  rw [if_neg (by simpa using h)]

theorem upperChar_toNat_of {c : Char} (h : 97 ≤ c.toNat ∧ c.toNat ≤ 122) :
    (upperChar c).toNat = c.toNat - 32 := by
  unfold upperChar
  rw [if_pos (by simpa using h)]
  exact charOfNat_toNat (by omega)

theorem upperChar_idem (c : Char) : upperChar (upperChar c) = upperChar c := by
  by_cases h : 97 ≤ c.toNat ∧ c.toNat ≤ 122
  · have ht := upperChar_toNat_of h
    exact upperChar_eq_self (by omega)
  · rw [upperChar_eq_self h, upperChar_eq_self h]

theorem lower_upper (c : Char) : lowerChar (upperChar c) = lowerChar c := by
  by_cases h : 97 ≤ c.toNat ∧ c.toNat ≤ 122
  · have ht := upperChar_toNat_of h
    have hup : 65 ≤ (upperChar c).toNat ∧ (upperChar c).toNat ≤ 90 := by omega
    have h1 : lowerChar (upperChar c) = c := by
      unfold lowerChar
      rw [if_pos (by simpa using hup), ht]
      have h32 : c.toNat - 32 + 32 = c.toNat := by omega
      rw [h32, Char.ofNat_toNat]
    have h2 : lowerChar c = c := lowerChar_eq_self (by omega)
    rw [h1, h2]
  · rw [upperChar_eq_self h]

theorem isWs_upper (c : Char) : isWsChar (upperChar c) = isWsChar c := by
  by_cases h : 97 ≤ c.toNat ∧ c.toNat ≤ 122
  · have ht := upperChar_toNat_of h
    rw [toNat_big_not_ws (by omega : (48 : ℕ) ≤ (upperChar c).toNat),
      toNat_big_not_ws (by omega : (48 : ℕ) ≤ c.toNat)]
  · rw [upperChar_eq_self h]

theorem upperChar_eq_dot {c : Char} (h : upperChar c = '.') : c = '.' := by
  by_cases hr : 97 ≤ c.toNat ∧ c.toNat ≤ 122
  · exfalso
    have ht := upperChar_toNat_of hr
    rw [h] at ht
    have hdot : ('.').toNat = 46 := rfl
    omega
  · rwa [upperChar_eq_self hr] at h

theorem digit_upperChar {c : Char} (h : isDigitChar c = true) : upperChar c = c :=
  upperChar_eq_self (by have := digit_toNat h; omega)

theorem digit_lowerChar {c : Char} (h : isDigitChar c = true) : lowerChar c = c :=
  lowerChar_eq_self (by have := digit_toNat h; omega)

theorem ws_lowerChar {c : Char} (h : isWsChar c = true) : lowerChar c = c := by
  refine lowerChar_eq_self ?_
  rcases ws_toNat h with h1 | h1 | h1 | h1 | h1 | h1 <;> omega

theorem ws_upperChar {c : Char} (h : isWsChar c = true) : upperChar c = c := by
  refine upperChar_eq_self ?_
  rcases ws_toNat h with h1 | h1 | h1 | h1 | h1 | h1 <;> omega

theorem digit_ne_colon {c : Char} (h : isDigitChar c = true) : (c == ':') = false := by
  rw [beq_eq_false_iff_ne]
  intro he
  rw [he] at h
  exact absurd h (by decide)

theorem digit_ne_dot {c : Char} (h : isDigitChar c = true) : (c == '.') = false := by
  rw [beq_eq_false_iff_ne]
  intro he
  rw [he] at h
  exact absurd h (by decide)

theorem digit_lower_ne_t {c : Char} (h : isDigitChar c = true) : (lowerChar c == 't') = false := by
  rw [digit_lowerChar h, beq_eq_false_iff_ne]
  intro he
  rw [he] at h
  exact absurd h (by decide)

theorem ws_lower_ne_t {c : Char} (h : isWsChar c = true) : (lowerChar c == 't') = false := by
  rw [ws_lowerChar h, beq_eq_false_iff_ne]
  intro he
  rw [he] at h
  exact absurd h (by decide)

theorem ampm_lower {a b : Char} (h : ampmOk a b = true) :
    (lowerChar a = 'a' ∨ lowerChar a = 'p') ∧ lowerChar b = 'm' := by
  simpa [ampmOk, Bool.or_eq_true, beq_iff_eq, Bool.and_eq_true] using h

theorem ampm_upper {a b : Char} : ampmOk (upperChar a) (upperChar b) = ampmOk a b := by
  unfold ampmOk
  rw [lower_upper, lower_upper]

theorem ampm_not_ws {a b : Char} (h : ampmOk a b = true) :
    isWsChar a = false ∧ isWsChar b = false := by
  obtain ⟨ha, hb⟩ := ampm_lower h
  constructor
  · cases hw : isWsChar a
    · rfl
    · exfalso
      rw [ws_lowerChar hw] at ha
      rcases ha with ha | ha <;> rw [ha] at hw <;> exact absurd hw (by decide)
  · cases hw : isWsChar b
    · rfl
    · exfalso
      rw [ws_lowerChar hw] at hb
      rw [hb] at hw
      exact absurd hw (by decide)

theorem ampm_lower_ne_t {a b : Char} (h : ampmOk a b = true) :
    (lowerChar a == 't') = false ∧ (lowerChar b == 't') = false := by
  obtain ⟨ha, hb⟩ := ampm_lower h
  constructor
  · rcases ha with ha | ha <;> rw [ha] <;> decide
  · rw [hb]; decide

theorem ampm_ne_dot {a b : Char} (h : ampmOk a b = true) : a ≠ '.' ∧ b ≠ '.' := by
  obtain ⟨ha, hb⟩ := ampm_lower h
  constructor
  · intro he
    rw [he] at ha
    rcases ha with ha | ha <;> exact absurd ha (by decide)
  · intro he
    rw [he] at hb
    exact absurd hb (by decide)

/-! Shape predicates for whitespace-canonical strings: the output of the
collapse-and-trim stage has only plain spaces as whitespace, no two adjacent
whitespace characters, and no leading or trailing whitespace. -/

/-- Every whitespace character is a plain space. -/
def okWs (l : List Char) : Bool := l.all (fun c => !isWsChar c || c == ' ')

/-- No two adjacent whitespace characters. -/
def noTwoWs : List Char → Bool
  | a :: b :: t => (!(isWsChar a && isWsChar b)) && noTwoWs (b :: t)
  | _ => true

/-- The first character, if any, is not whitespace. -/
def headNoWs : List Char → Bool
  | [] => true
  | c :: _ => !isWsChar c

/-- The last character, if any, is not whitespace. -/
def lastNoWs : List Char → Bool
  | [] => true
  | [c] => !isWsChar c
  | _ :: b :: t => lastNoWs (b :: t)

/-- Whitespace-canonical shape: the invariant of `cleanL` outputs. -/
def cleanShape (l : List Char) : Bool := okWs l && noTwoWs l && headNoWs l && lastNoWs l

theorem cleanShape_parts {l : List Char} (h : cleanShape l = true) :
    okWs l = true ∧ noTwoWs l = true ∧ headNoWs l = true ∧ lastNoWs l = true := by
  simpa [cleanShape, Bool.and_eq_true, and_assoc] using h

theorem cleanShape_of_parts {l : List Char} (h1 : okWs l = true) (h2 : noTwoWs l = true)
    (h3 : headNoWs l = true) (h4 : lastNoWs l = true) : cleanShape l = true := by
  simp [cleanShape, h1, h2, h3, h4]

theorem noTwoWs_cons_of_headNoWs {a : Char} {l : List Char} (h1 : headNoWs l = true)
    (h2 : noTwoWs l = true) : noTwoWs (a :: l) = true := by
  cases l with
  | nil => rfl
  | cons x t =>
    have hx : isWsChar x = false := by simpa [headNoWs] using h1
    simp [noTwoWs, hx, h2]

theorem noTwoWs_cons_of_not_ws {a : Char} {l : List Char} (ha : isWsChar a = false)
    (h2 : noTwoWs l = true) : noTwoWs (a :: l) = true := by
  cases l with
  | nil => rfl
  | cons x t => simp [noTwoWs, ha, h2]

theorem noTwoWs_tail {a : Char} {l : List Char} (h : noTwoWs (a :: l) = true) :
    noTwoWs l = true := by
  cases l with
  | nil => rfl
  | cons x t => exact (Bool.and_eq_true_iff.mp h).2

theorem okWs_tail {a : Char} {l : List Char} (h : okWs (a :: l) = true) : okWs l = true := by
  simp only [okWs, List.all_cons, Bool.and_eq_true] at h
  exact h.2

theorem squashWs_cons_ws_true {c : Char} {cs : List Char} (hc : isWsChar c = true) :
    squashWs true (c :: cs) = squashWs true cs := by
  simp [squashWs, hc]

theorem squashWs_cons_ws_false {c : Char} {cs : List Char} (hc : isWsChar c = true) :
    squashWs false (c :: cs) = ' ' :: squashWs true cs := by
  simp [squashWs, hc]

theorem squashWs_cons_not_ws {b : Bool} {c : Char} {cs : List Char} (hc : isWsChar c = false) :
    squashWs b (c :: cs) = c :: squashWs false cs := by
  simp [squashWs, hc]

theorem squash_headNoWs : ∀ cs : List Char, headNoWs (squashWs true cs) = true
  | [] => rfl
  | c :: cs => by
    by_cases hc : isWsChar c = true
    · rw [squashWs_cons_ws_true hc]
      exact squash_headNoWs cs
    · rw [squashWs_cons_not_ws (Bool.eq_false_iff.mpr hc)]
      simp [headNoWs, hc]

theorem squash_okWs : ∀ (b : Bool) (l : List Char), okWs (squashWs b l) = true
  | _, [] => rfl
  | b, c :: cs => by
    by_cases hc : isWsChar c = true
    · cases b with
      | true =>
        rw [squashWs_cons_ws_true hc]
        exact squash_okWs true cs
      | false =>
        rw [squashWs_cons_ws_false hc]
        simp only [okWs, List.all_cons, Bool.and_eq_true]
        exact ⟨by decide, by simpa [okWs] using squash_okWs true cs⟩
    · have hcf : isWsChar c = false := Bool.eq_false_iff.mpr hc
      rw [squashWs_cons_not_ws hcf]
      simp only [okWs, List.all_cons, Bool.and_eq_true]
      exact ⟨by simp [hcf], by simpa [okWs] using squash_okWs false cs⟩

theorem squash_noTwoWs : ∀ (b : Bool) (l : List Char), noTwoWs (squashWs b l) = true
  | _, [] => rfl
  | b, c :: cs => by
    by_cases hc : isWsChar c = true
    · cases b with
      | true =>
        rw [squashWs_cons_ws_true hc]
        exact squash_noTwoWs true cs
      | false =>
        rw [squashWs_cons_ws_false hc]
        exact noTwoWs_cons_of_headNoWs (squash_headNoWs cs) (squash_noTwoWs true cs)
    · have hcf : isWsChar c = false := Bool.eq_false_iff.mpr hc
      rw [squashWs_cons_not_ws hcf]
      exact noTwoWs_cons_of_not_ws hcf (squash_noTwoWs false cs)

theorem trimFront_headNoWs : ∀ l : List Char, headNoWs (trimFront l) = true
  | [] => rfl
  | c :: cs => by
    unfold trimFront
    rw [List.dropWhile_cons]
    by_cases hc : isWsChar c = true
    · rw [if_pos hc]
      exact trimFront_headNoWs cs
    · rw [if_neg hc]
      simp [headNoWs, hc]

theorem trimFront_okWs {l : List Char} (h : okWs l = true) : okWs (trimFront l) = true := by
  unfold okWs trimFront at *
  rw [List.all_eq_true] at h ⊢
  intro x hx
  exact h x ((List.dropWhile_sublist isWsChar).subset hx)

theorem trimFront_noTwoWs : ∀ {l : List Char}, noTwoWs l = true → noTwoWs (trimFront l) = true := by
  intro l
  induction l with
  | nil => intro h; exact h
  | cons c cs ih =>
    intro h
    unfold trimFront
    rw [List.dropWhile_cons]
    by_cases hc : isWsChar c = true
    · rw [if_pos hc]
      exact ih (noTwoWs_tail h)
    · rw [if_neg hc]
      exact h

theorem trimFront_lastNoWs : ∀ {l : List Char}, lastNoWs l = true → lastNoWs (trimFront l) = true := by
  intro l
  induction l with
  | nil => intro h; exact h
  | cons c cs ih =>
    intro h
    unfold trimFront
    rw [List.dropWhile_cons]
    by_cases hc : isWsChar c = true
    · rw [if_pos hc]
      refine ih ?_
      cases cs with
      | nil => rfl
      | cons d t => exact h
    · rw [if_neg hc]
      exact h

theorem trimFront_id {l : List Char} (h : headNoWs l = true) : trimFront l = l := by
  cases l with
  | nil => rfl
  | cons c cs =>
    have hc : isWsChar c = false := by simpa [headNoWs] using h
    unfold trimFront
    rw [List.dropWhile_cons, if_neg (by simp [hc])]

theorem trimBack_sublist : ∀ l : List Char, (trimBack l).Sublist l
  | [] => List.Sublist.refl []
  | c :: cs => by
    simp only [trimBack]
    by_cases hcond : ((trimBack cs).isEmpty && isWsChar c) = true
    · rw [if_pos hcond]
      exact List.nil_sublist _
    · rw [if_neg hcond]
      exact List.Sublist.cons₂ c (trimBack_sublist cs)

theorem trimBack_head? : ∀ l : List Char, trimBack l = [] ∨ (trimBack l).head? = l.head?
  | [] => Or.inl rfl
  | c :: cs => by
    simp only [trimBack]
    by_cases hcond : ((trimBack cs).isEmpty && isWsChar c) = true
    · rw [if_pos hcond]
      exact Or.inl rfl
    · rw [if_neg hcond]
      exact Or.inr rfl

theorem trimBack_lastNoWs : ∀ l : List Char, lastNoWs (trimBack l) = true
  | [] => rfl
  | c :: cs => by
    simp only [trimBack]
    by_cases hcond : ((trimBack cs).isEmpty && isWsChar c) = true
    · rw [if_pos hcond]
      rfl
    · rw [if_neg hcond]
      cases hrr : trimBack cs with
      | nil =>
        have hc : isWsChar c = false := by
          rw [hrr] at hcond
          simpa using hcond
        simp [lastNoWs, hc]
      | cons d t =>
        have hr := trimBack_lastNoWs cs
        rw [hrr] at hr
        exact hr

theorem trimBack_headNoWs {l : List Char} (h : headNoWs l = true) :
    headNoWs (trimBack l) = true := by
  cases l with
  | nil => exact h
  | cons c cs =>
    simp only [trimBack]
    by_cases hcond : ((trimBack cs).isEmpty && isWsChar c) = true
    · rw [if_pos hcond]
      rfl
    · rw [if_neg hcond]
      exact h

theorem trimBack_okWs {l : List Char} (h : okWs l = true) : okWs (trimBack l) = true := by
  unfold okWs at *
  rw [List.all_eq_true] at h ⊢
  intro x hx
  exact h x ((trimBack_sublist l).subset hx)

theorem trimBack_noTwoWs : ∀ {l : List Char}, noTwoWs l = true → noTwoWs (trimBack l) = true := by
  intro l
  induction l with
  | nil => intro h; exact h
  | cons c cs ih =>
    intro h
    simp only [trimBack]
    by_cases hcond : ((trimBack cs).isEmpty && isWsChar c) = true
    · rw [if_pos hcond]
      rfl
    · rw [if_neg hcond]
      have ht := ih (noTwoWs_tail h)
      cases hrr : trimBack cs with
      | nil => rfl
      | cons d t =>
        rw [hrr] at ht
        rcases trimBack_head? cs with he | hh
        · rw [he] at hrr
          exact absurd hrr.symm (by simp)
        · rw [hrr] at hh
          cases cs with
          | nil => exact absurd hh (by simp)
          | cons e cs2 =>
            have hde : e = d := by simpa using hh.symm
            subst hde
            have hpair : (!(isWsChar c && isWsChar e)) = true := (Bool.and_eq_true_iff.mp h).1
            simp only [noTwoWs, Bool.and_eq_true]
            exact ⟨hpair, ht⟩

theorem trimBack_id : ∀ {l : List Char}, lastNoWs l = true → trimBack l = l := by
  intro l
  induction l with
  | nil => intro h; rfl
  | cons c cs ih =>
    intro h
    simp only [trimBack]
    cases cs with
    | nil =>
      have hc : isWsChar c = false := by simpa [lastNoWs] using h
      rw [if_neg (by simp [trimBack, hc])]
      rfl
    | cons d t =>
      have ht : trimBack (d :: t) = d :: t := ih h
      rw [ht, if_neg (by simp)]

theorem squash_id : ∀ (b : Bool) (l : List Char), okWs l = true → noTwoWs l = true →
    (b = true → headNoWs l = true) → squashWs b l = l
  | _, [], _, _, _ => rfl
  | b, c :: cs, hok, h2, hb => by
    by_cases hc : isWsChar c = true
    · have hcsp : c = ' ' := by
        have hm := List.all_eq_true.mp hok c (by simp)
        simp [hc] at hm
        exact hm
      cases b with
      | true =>
        exfalso
        have := hb rfl
        simp [headNoWs, hc] at this
      | false =>
        rw [squashWs_cons_ws_false hc]
        have hcs : squashWs true cs = cs := by
          refine squash_id true cs (okWs_tail hok) (noTwoWs_tail h2) ?_
          intro _
          cases cs with
          | nil => rfl
          | cons d t =>
            have hpair := (Bool.and_eq_true_iff.mp h2).1
            simp only [hc, Bool.true_and, Bool.not_eq_eq_eq_not, Bool.not_true] at hpair
            simp [headNoWs, hpair]
        rw [hcs, hcsp]
    · have hcf : isWsChar c = false := Bool.eq_false_iff.mpr hc
      rw [squashWs_cons_not_ws hcf]
      rw [squash_id false cs (okWs_tail hok) (noTwoWs_tail h2) (fun hf => absurd hf (by simp))]

theorem cleanShape_cleanL (l : List Char) : cleanShape (cleanL l) = true := by
  unfold cleanL
  refine cleanShape_of_parts ?_ ?_ ?_ ?_
  · exact trimBack_okWs (trimFront_okWs (squash_okWs false l))
  · exact trimBack_noTwoWs (trimFront_noTwoWs (squash_noTwoWs false l))
  · exact trimBack_headNoWs (trimFront_headNoWs (squashWs false l))
  · exact trimBack_lastNoWs (trimFront (squashWs false l))

theorem cleanL_id {l : List Char} (h : cleanShape l = true) : cleanL l = l := by
  obtain ⟨hok, h2, hh, hl⟩ := cleanShape_parts h
  unfold cleanL
  rw [squash_id false l hok h2 (fun hf => absurd hf (by simp)), trimFront_id hh, trimBack_id hl]

theorem okWs_map_upper {l : List Char} (h : okWs l = true) : okWs (l.map upperChar) = true := by
  unfold okWs at *
  rw [List.all_eq_true] at h ⊢
  intro x hx
  obtain ⟨c, hc, rfl⟩ := List.mem_map.mp hx
  have hcm := h c hc
  by_cases hw : isWsChar c = true
  · have hsp : c = ' ' := by
      simp [hw] at hcm
      exact hcm
    subst hsp
    decide
  · simp [isWs_upper, Bool.eq_false_iff.mpr hw]

theorem noTwoWs_map_upper : ∀ {l : List Char}, noTwoWs l = true → noTwoWs (l.map upperChar) = true
  | [], _ => rfl
  | [a], _ => rfl
  | a :: b :: t, h => by
    simp only [List.map_cons]
    obtain ⟨h1, h2⟩ := Bool.and_eq_true_iff.mp h
    have ih : noTwoWs ((b :: t).map upperChar) = true := noTwoWs_map_upper h2
    simp only [List.map_cons] at ih
    simp only [noTwoWs, Bool.and_eq_true]
    exact ⟨by rw [isWs_upper, isWs_upper]; exact h1, ih⟩

theorem headNoWs_map_upper {l : List Char} (h : headNoWs l = true) :
    headNoWs (l.map upperChar) = true := by
  cases l with
  | nil => rfl
  | cons c cs =>
    simp only [List.map_cons, headNoWs, isWs_upper]
    simpa [headNoWs] using h

theorem lastNoWs_map_upper : ∀ {l : List Char}, lastNoWs l = true → lastNoWs (l.map upperChar) = true
  | [], _ => rfl
  | [c], h => by
    simp only [List.map_cons, List.map_nil, lastNoWs, isWs_upper]
    simpa [lastNoWs] using h
  | a :: b :: t, h => by
    simp only [List.map_cons]
    have ih : lastNoWs ((b :: t).map upperChar) = true := lastNoWs_map_upper h
    simp only [List.map_cons] at ih
    exact ih

theorem cleanShape_map_upper {l : List Char} (h : cleanShape l = true) :
    cleanShape (l.map upperChar) = true := by
  obtain ⟨hok, h2, hh, hl⟩ := cleanShape_parts h
  exact cleanShape_of_parts (okWs_map_upper hok) (noTwoWs_map_upper h2)
    (headNoWs_map_upper hh) (lastNoWs_map_upper hl)

theorem hasTo_exists : ∀ (l : List Char), hasToTest l = true → ∃ c ∈ l, (lowerChar c == 't') = true
  | [], h => absurd h (by decide)
  | c :: cs, h => by
    have h2 : ((stripCI ['t', 'o'] (c :: cs)).isSome || wordSearch ['t', 'o'] cs) = true := h
    rcases Bool.or_eq_true_iff.mp h2 with h1 | h1
    · rw [stripCI] at h1
      by_cases hc : (lowerChar c == 't') = true
      · exact ⟨c, by simp, hc⟩
      · rw [if_neg hc] at h1
        exact absurd h1 (by simp)
    · obtain ⟨d, hd, hdt⟩ := hasTo_exists cs h1
      exact ⟨d, by simp [hd], hdt⟩

theorem hasTo_false_of_no_t {l : List Char} (h : ∀ c ∈ l, (lowerChar c == 't') = false) :
    hasToTest l = false := by
  cases hx : hasToTest l
  · rfl
  · exfalso
    obtain ⟨c, hc, hct⟩ := hasTo_exists l hx
    rw [h c hc] at hct
    exact Bool.false_ne_true hct

theorem ampmTail_some {rest : List Char} {p : Char × Char} (h : ampmTail rest = some p) :
    ampmOk p.1 p.2 = true := by
  unfold ampmTail at h
  rcases hd : rest.dropWhile isWsChar with _ | ⟨a, _ | ⟨b, _ | _⟩⟩ <;> rw [hd] at h <;>
    simp only [ampmTail2] at h
  · exact absurd h (by simp)
  · exact absurd h (by simp)
  · by_cases hok : ampmOk a b = true
    · rw [if_pos hok] at h
      obtain rfl : (a, b) = p := by simpa using h
      exact hok
    · rw [if_neg hok] at h
      exact absurd h (by simp)
  · exact absurd h (by simp)

theorem ws_ne_dot {c : Char} (h : isWsChar c = true) : c ≠ '.' := by
  intro he
  rw [he] at h
  exact absurd h (by decide)

theorem dotRewrite_four (c1 c2 c3 c4 : Char) (rest : List Char) :
    dotRewrite (c1 :: c2 :: c3 :: c4 :: rest)
      = if (c2 == '.' && isDigitChar c1 && isDigitChar c3 && isDigitChar c4) = true then
          (match ampmTail rest with
           | some p => [c1, ':', c3, c4, ' ', p.1, p.2]
           | none => c1 :: c2 :: c3 :: c4 :: rest)
        else
          (match rest with
           | c5 :: rest2 =>
             if (c3 == '.' && isDigitChar c1 && isDigitChar c2 && isDigitChar c4
                 && isDigitChar c5) = true then
               (match ampmTail rest2 with
                | some p => [c1, c2, ':', c4, c5, ' ', p.1, p.2]
                | none => c1 :: c2 :: c3 :: c4 :: rest)
             else c1 :: c2 :: c3 :: c4 :: rest
           | [] => c1 :: c2 :: c3 :: c4 :: rest) := rfl

theorem colonMatch_four (c1 c2 c3 c4 : Char) (rest : List Char) :
    colonMatch (c1 :: c2 :: c3 :: c4 :: rest)
      = if (c2 == ':') = true then
          isDigitChar c1 && isDigitChar c3 && isDigitChar c4 && colonTail rest
        else
          (match rest with
           | c5 :: rest2 =>
             (c3 == ':') && isDigitChar c1 && isDigitChar c2 && isDigitChar c4 && isDigitChar c5
               && colonTail rest2
           | [] => false) := rfl

theorem dotRewrite_props (l : List Char) :
    dotRewrite l = l
    ∨ (colonMatch (dotRewrite l) = true ∧ okWs (dotRewrite l) = true) := by
  have hspws : isWsChar ' ' = true := by decide
  have hcolws : isWsChar ':' = false := by decide
  rcases l with _ | ⟨c1, _ | ⟨c2, _ | ⟨c3, _ | ⟨c4, rest⟩⟩⟩⟩
  · exact Or.inl rfl
  · exact Or.inl rfl
  · exact Or.inl rfl
  · exact Or.inl rfl
  · rw [dotRewrite_four]
    by_cases hc1 : (c2 == '.' && isDigitChar c1 && isDigitChar c3 && isDigitChar c4) = true
    · rw [if_pos hc1]
      have hc1x := hc1
      simp only [Bool.and_eq_true] at hc1x
      obtain ⟨⟨⟨_hdot, hd1⟩, hd3⟩, hd4⟩ := hc1x
      rcases hat : ampmTail rest with _ | p
      · exact Or.inl rfl
      · right
        have hab := ampmTail_some hat
        obtain ⟨hws1, hws2⟩ := ampm_not_ws hab
        constructor
        · show colonMatch [c1, ':', c3, c4, ' ', p.1, p.2] = true
          rw [colonMatch_four, if_pos (by decide)]
          simp [colonTail, hd1, hd3, hd4, hab, hspws]
        · show okWs [c1, ':', c3, c4, ' ', p.1, p.2] = true
          simp [okWs, digit_not_ws hd1, digit_not_ws hd3, digit_not_ws hd4, hws1, hws2, hcolws]
    · rw [if_neg hc1]
      rcases rest with _ | ⟨c5, rest2⟩
      · exact Or.inl rfl
      · by_cases hc2 :
            (c3 == '.' && isDigitChar c1 && isDigitChar c2 && isDigitChar c4
              && isDigitChar c5) = true
        · have hc2x := hc2
          simp only [Bool.and_eq_true] at hc2x
          obtain ⟨⟨⟨⟨_hdot, hd1⟩, hd2⟩, hd4⟩, hd5⟩ := hc2x
          rcases hat : ampmTail rest2 with _ | p
          · refine Or.inl ?_
            show (if _ = true then _ else _) = _
            rw [if_pos hc2, hat]
          · have hab := ampmTail_some hat
            obtain ⟨hws1, hws2⟩ := ampm_not_ws hab
            have hout : (match c5 :: rest2 with
                | c5 :: rest2 =>
                  if (c3 == '.' && isDigitChar c1 && isDigitChar c2 && isDigitChar c4
                      && isDigitChar c5) = true then
                    (match ampmTail rest2 with
                     | some p => [c1, c2, ':', c4, c5, ' ', p.1, p.2]
                     | none => c1 :: c2 :: c3 :: c4 :: c5 :: rest2)
                  else c1 :: c2 :: c3 :: c4 :: c5 :: rest2
                | [] => c1 :: c2 :: c3 :: c4 :: c5 :: rest2)
                = [c1, c2, ':', c4, c5, ' ', p.1, p.2] := by
              show (if _ = true then _ else _) = _
              rw [if_pos hc2, hat]
            rw [hout]
            right
            constructor
            · rw [colonMatch_four, if_neg (by simp [digit_ne_colon hd2])]
              show ((':' == ':') && isDigitChar c1 && isDigitChar c2 && isDigitChar c4
                && isDigitChar c5 && colonTail [' ', p.1, p.2]) = true
              simp [colonTail, hd1, hd2, hd4, hd5, hab, hspws]
            · simp [okWs, digit_not_ws hd1, digit_not_ws hd2, digit_not_ws hd4,
                digit_not_ws hd5, hws1, hws2, hcolws]
        · refine Or.inl ?_
          show (if _ = true then _ else _) = _
          rw [if_neg hc2]

theorem dotRewrite_id_of_no_dot : ∀ {l : List Char}, '.' ∉ l → dotRewrite l = l := by
  intro l h
  rcases l with _ | ⟨c1, _ | ⟨c2, _ | ⟨c3, _ | ⟨c4, rest⟩⟩⟩⟩
  · rfl
  · rfl
  · rfl
  · rfl
  · rw [dotRewrite_four]
    have h2 : (c2 == '.') = false := beq_eq_false_iff_ne.mpr (fun he => h (by simp [he]))
    rw [if_neg (by simp [h2])]
    rcases rest with _ | ⟨c5, rest2⟩
    · rfl
    · have h3 : (c3 == '.') = false := beq_eq_false_iff_ne.mpr (fun he => h (by simp [he]))
      show (if _ = true then _ else _) = _
      rw [if_neg (by simp [h3])]

theorem colonTail_cases : ∀ {t : List Char}, colonTail t = true →
    t = [] ∨ (∃ a b, t = [a, b] ∧ ampmOk a b = true)
      ∨ (∃ w a b, t = [w, a, b] ∧ isWsChar w = true ∧ ampmOk a b = true) := by
  intro t h
  rcases t with _ | ⟨x, _ | ⟨y, _ | ⟨z, _ | t4⟩⟩⟩
  · exact Or.inl rfl
  · exact absurd h (by simp [colonTail])
  · exact Or.inr (Or.inl ⟨x, y, rfl, by simpa [colonTail] using h⟩)
  · obtain ⟨hw, ha⟩ : isWsChar x = true ∧ ampmOk y z = true := by
      simpa [colonTail, Bool.and_eq_true] using h
    exact Or.inr (Or.inr ⟨x, y, z, rfl, hw, ha⟩)
  · exact absurd h (by simp [colonTail])

theorem colonMatch_cases {l : List Char} (h : colonMatch l = true) :
    (∃ c1 c3 c4 t, l = c1 :: ':' :: c3 :: c4 :: t ∧ isDigitChar c1 = true
        ∧ isDigitChar c3 = true ∧ isDigitChar c4 = true ∧ colonTail t = true)
    ∨ (∃ c1 c2 c4 c5 t, l = c1 :: c2 :: ':' :: c4 :: c5 :: t ∧ isDigitChar c1 = true
        ∧ isDigitChar c2 = true ∧ isDigitChar c4 = true ∧ isDigitChar c5 = true
        ∧ colonTail t = true) := by
  rcases l with _ | ⟨c1, _ | ⟨c2, _ | ⟨c3, _ | ⟨c4, rest⟩⟩⟩⟩
  · exact absurd h (by simp [colonMatch])
  · exact absurd h (by simp [colonMatch])
  · exact absurd h (by simp [colonMatch])
  · exact absurd h (by simp [colonMatch])
  · rw [colonMatch_four] at h
    by_cases h2 : (c2 == ':') = true
    · rw [if_pos h2] at h
      obtain rfl : c2 = ':' := eq_of_beq h2
      obtain ⟨⟨⟨hd1, hd3⟩, hd4⟩, ht⟩ :
          ((isDigitChar c1 = true ∧ isDigitChar c3 = true) ∧ isDigitChar c4 = true)
            ∧ colonTail rest = true := by
        simpa [Bool.and_eq_true, and_assoc] using h
      exact Or.inl ⟨c1, c3, c4, rest, rfl, hd1, hd3, hd4, ht⟩
    · rw [if_neg h2] at h
      rcases rest with _ | ⟨c5, rest2⟩
      · exact absurd h (by simp)
      · have h3 : ((c3 == ':') && isDigitChar c1 && isDigitChar c2 && isDigitChar c4
            && isDigitChar c5 && colonTail rest2) = true := h
        obtain ⟨⟨⟨⟨⟨hc3, hd1⟩, hd2⟩, hd4⟩, hd5⟩, ht⟩ :
            (((((c3 == ':') = true ∧ isDigitChar c1 = true) ∧ isDigitChar c2 = true)
              ∧ isDigitChar c4 = true) ∧ isDigitChar c5 = true) ∧ colonTail rest2 = true := by
          simpa [Bool.and_eq_true] using h3
        obtain rfl : c3 = ':' := eq_of_beq hc3
        exact Or.inr ⟨c1, c2, c4, c5, rest2, rfl, hd1, hd2, hd4, hd5, ht⟩

theorem colonTail_chars {t : List Char} (ht : colonTail t = true) :
    ∀ c ∈ t, (lowerChar c == 't') = false ∧ c ≠ '.' := by
  intro c hc
  rcases colonTail_cases ht with rfl | ⟨a, b, rfl, hab⟩ | ⟨w, a, b, rfl, hw, hab⟩
  · exact absurd hc (by simp)
  · rcases by simpa using hc with rfl | rfl
    · exact ⟨(ampm_lower_ne_t hab).1, (ampm_ne_dot hab).1⟩
    · exact ⟨(ampm_lower_ne_t hab).2, (ampm_ne_dot hab).2⟩
  · rcases by simpa using hc with rfl | rfl | rfl
    · exact ⟨ws_lower_ne_t hw, ws_ne_dot hw⟩
    · exact ⟨(ampm_lower_ne_t hab).1, (ampm_ne_dot hab).1⟩
    · exact ⟨(ampm_lower_ne_t hab).2, (ampm_ne_dot hab).2⟩

theorem colon_chars {l : List Char} (h : colonMatch l = true) :
    ∀ c ∈ l, (lowerChar c == 't') = false ∧ c ≠ '.' := by
  have hccol : (lowerChar ':' == 't') = false := by decide
  have hncol : (':' : Char) ≠ '.' := by decide
  have hdig : ∀ {d : Char}, isDigitChar d = true → (lowerChar d == 't') = false ∧ d ≠ '.' :=
    fun hd => ⟨digit_lower_ne_t hd, fun he => by
      rw [he] at hd
      exact absurd hd (by decide)⟩
  intro c hc
  rcases colonMatch_cases h with ⟨c1, c3, c4, t, rfl, h1, h3, h4, ht⟩
    | ⟨c1, c2, c4, c5, t, rfl, h1, h2, h4, h5, ht⟩
  · rcases by simpa using hc with rfl | rfl | rfl | rfl | hmem
    · exact hdig h1
    · exact ⟨hccol, hncol⟩
    · exact hdig h3
    · exact hdig h4
    · exact colonTail_chars ht c hmem
  · rcases by simpa using hc with rfl | rfl | rfl | rfl | rfl | hmem
    · exact hdig h1
    · exact hdig h2
    · exact ⟨hccol, hncol⟩
    · exact hdig h4
    · exact hdig h5
    · exact colonTail_chars ht c hmem

theorem colonTail_map_upper {t : List Char} (h : colonTail t = true) :
    colonTail (t.map upperChar) = true := by
  rcases colonTail_cases h with rfl | ⟨a, b, rfl, hab⟩ | ⟨w, a, b, rfl, hw, hab⟩
  · rfl
  · show colonTail [upperChar a, upperChar b] = true
    show ampmOk (upperChar a) (upperChar b) = true
    rw [ampm_upper]
    exact hab
  · show colonTail [upperChar w, upperChar a, upperChar b] = true
    show (isWsChar (upperChar w) && ampmOk (upperChar a) (upperChar b)) = true
    rw [isWs_upper, ampm_upper]
    simp [hw, hab]

theorem colonMatch_map_upper {l : List Char} (h : colonMatch l = true) :
    colonMatch (l.map upperChar) = true := by
  have hup : upperChar ':' = ':' := by decide
  rcases colonMatch_cases h with ⟨c1, c3, c4, t, rfl, h1, h3, h4, ht⟩
    | ⟨c1, c2, c4, c5, t, rfl, h1, h2, h4, h5, ht⟩
  · simp only [List.map_cons, hup]
    rw [digit_upperChar h1, digit_upperChar h3, digit_upperChar h4]
    rw [colonMatch_four, if_pos (by decide)]
    simp [h1, h3, h4, colonTail_map_upper ht]
  · simp only [List.map_cons, hup]
    rw [digit_upperChar h1, digit_upperChar h2, digit_upperChar h4, digit_upperChar h5]
    rw [colonMatch_four, if_neg (by simp [digit_ne_colon h2])]
    show ((':' == ':') && isDigitChar c1 && isDigitChar c2 && isDigitChar c4 && isDigitChar c5
      && colonTail (t.map upperChar)) = true
    simp [h1, h2, h4, h5, colonTail_map_upper ht]

theorem colon_cleanShape {l : List Char} (hc : colonMatch l = true) (hok : okWs l = true) :
    cleanShape l = true := by
  have hcolws : isWsChar ':' = false := by decide
  refine cleanShape_of_parts hok ?_ ?_ ?_
  · -- no two adjacent whitespace characters
    rcases colonMatch_cases hc with ⟨c1, c3, c4, t, rfl, h1, h3, h4, ht⟩
      | ⟨c1, c2, c4, c5, t, rfl, h1, h2, h4, h5, ht⟩ <;>
      rcases colonTail_cases ht with rfl | ⟨a, b, rfl, hab⟩ | ⟨w, a, b, rfl, hw, hab⟩
    · simp [noTwoWs, digit_not_ws h1, digit_not_ws h3, digit_not_ws h4, hcolws]
    · simp [noTwoWs, digit_not_ws h1, digit_not_ws h3, digit_not_ws h4, hcolws,
        (ampm_not_ws hab).1, (ampm_not_ws hab).2]
    · simp [noTwoWs, digit_not_ws h1, digit_not_ws h3, digit_not_ws h4, hcolws,
        (ampm_not_ws hab).1, (ampm_not_ws hab).2]
    · simp [noTwoWs, digit_not_ws h1, digit_not_ws h2, digit_not_ws h4, digit_not_ws h5, hcolws]
    · simp [noTwoWs, digit_not_ws h1, digit_not_ws h2, digit_not_ws h4, digit_not_ws h5, hcolws,
        (ampm_not_ws hab).1, (ampm_not_ws hab).2]
    · simp [noTwoWs, digit_not_ws h1, digit_not_ws h2, digit_not_ws h4, digit_not_ws h5, hcolws,
        (ampm_not_ws hab).1, (ampm_not_ws hab).2]
  · rcases colonMatch_cases hc with ⟨c1, c3, c4, t, rfl, h1, h3, h4, ht⟩
      | ⟨c1, c2, c4, c5, t, rfl, h1, h2, h4, h5, ht⟩ <;>
      simp [headNoWs, digit_not_ws h1]
  · rcases colonMatch_cases hc with ⟨c1, c3, c4, t, rfl, h1, h3, h4, ht⟩
      | ⟨c1, c2, c4, c5, t, rfl, h1, h2, h4, h5, ht⟩ <;>
      rcases colonTail_cases ht with rfl | ⟨a, b, rfl, hab⟩ | ⟨w, a, b, rfl, hw, hab⟩
    · simp [lastNoWs, digit_not_ws h4]
    · simp [lastNoWs, (ampm_not_ws hab).2]
    · simp [lastNoWs, (ampm_not_ws hab).2]
    · simp [lastNoWs, digit_not_ws h5]
    · simp [lastNoWs, (ampm_not_ws hab).2]
    · simp [lastNoWs, (ampm_not_ws hab).2]

theorem normStrL_def (l : List Char) :
    normStrL l
      = if hasToTest (cleanL l) = true then cleanL l
        else
          if colonMatch (dotRewrite (cleanL l)) = true then
            (dotRewrite (cleanL l)).map upperChar
          else dotRewrite (cleanL l) := rfl

theorem normStr_fixed_of_upper_colon {t2 : List Char} (hc : colonMatch t2 = true)
    (hok : okWs t2 = true) :
    normStrL (t2.map upperChar) = t2.map upperChar := by
  have hshape : cleanShape t2 = true := colon_cleanShape hc hok
  have hshapeU : cleanShape (t2.map upperChar) = true := cleanShape_map_upper hshape
  have hnt : hasToTest (t2.map upperChar) = false := by
    refine hasTo_false_of_no_t ?_
    intro c hcm
    obtain ⟨x, hx, rfl⟩ := List.mem_map.mp hcm
    rw [lower_upper]
    exact (colon_chars hc x hx).1
  have hdot : dotRewrite (t2.map upperChar) = t2.map upperChar := by
    refine dotRewrite_id_of_no_dot ?_
    intro hdm
    obtain ⟨x, hx, hxe⟩ := List.mem_map.mp hdm
    exact (colon_chars hc x hx).2 (upperChar_eq_dot hxe)
  rw [normStrL_def, cleanL_id hshapeU, hnt]
  rw [if_neg (by simp), hdot, if_pos (colonMatch_map_upper hc), List.map_map]
  exact List.map_congr_left (fun x _hx => upperChar_idem x)

theorem normStrL_idem (l : List Char) : normStrL (normStrL l) = normStrL l := by
  have hshape := cleanShape_cleanL l
  by_cases hto : hasToTest (cleanL l) = true
  · have h1 : normStrL l = cleanL l := by
      rw [normStrL_def, if_pos hto]
    rw [h1, normStrL_def, cleanL_id hshape, if_pos hto]
  · have hokt : okWs (cleanL l) = true := (cleanShape_parts hshape).1
    rcases dotRewrite_props (cleanL l) with hdr | ⟨hcm2, hok2⟩
    · by_cases hcm : colonMatch (cleanL l) = true
      · have h1 : normStrL l = (cleanL l).map upperChar := by
          rw [normStrL_def, if_neg (by simp [hto]), hdr, if_pos hcm]
        rw [h1]
        exact normStr_fixed_of_upper_colon hcm hokt
      · have h1 : normStrL l = cleanL l := by
          rw [normStrL_def, if_neg (by simp [hto]), hdr, if_neg (by simp [hcm])]
        rw [h1, normStrL_def, cleanL_id hshape, if_neg (by simp [hto]), hdr,
          if_neg (by simp [hcm])]
    · have h1 : normStrL l = (dotRewrite (cleanL l)).map upperChar := by
        rw [normStrL_def, if_neg (by simp [hto]), if_pos hcm2]
      rw [h1]
      exact normStr_fixed_of_upper_colon hcm2 hok2

set_option maxRecDepth 8000 in
set_option maxHeartbeats 2000000 in
theorem formatTime_core_decide :
    ((List.range 12).all (fun i =>
      (List.range 61).all (fun mm =>
        (["AM", "PM"]).all (fun ap =>
          decide (normStrL (toString (i + 1) ++ ":" ++ pad2 mm ++ " " ++ ap).data
            = (toString (i + 1) ++ ":" ++ pad2 mm ++ " " ++ ap).data))))) = true := by
  decide

theorem formatTime_core {k mm : ℕ} {ap : String} (hk1 : 1 ≤ k) (hk2 : k ≤ 12)
    (hmm : mm ≤ 60) (hap : ap = "AM" ∨ ap = "PM") :
    normStrL (toString k ++ ":" ++ pad2 mm ++ " " ++ ap).data
      = (toString k ++ ":" ++ pad2 mm ++ " " ++ ap).data := by
  have h := formatTime_core_decide
  simp only [List.all_eq_true, List.mem_range] at h
  have h1 := h (k - 1) (by omega) mm (by omega) ap
    (by rcases hap with rfl | rfl <;> simp)
  rw [show k - 1 + 1 = k by omega] at h1
  exact of_decide_eq_true h1

theorem append_ne_empty_right (s t : String) (ht : t.data ≠ []) : s ++ t ≠ "" := by
  intro he
  have hd : (s ++ t).data = [] := by rw [he]
  rw [String.data_append] at hd
  exact ht (List.append_eq_nil.mp hd).2

theorem formatTime_fixed (hh mm : ℕ) (hmm : mm ≤ 60) :
    normStrL (formatTime hh mm).data = (formatTime hh mm).data ∧ formatTime hh mm ≠ "" := by
  have hk1 : 1 ≤ (if hh % 12 = 0 then 12 else hh % 12) := by
    by_cases h : hh % 12 = 0
    · simp [h]
    · simp [h]; omega
  have hk2 : (if hh % 12 = 0 then 12 else hh % 12) ≤ 12 := by
    by_cases h : hh % 12 = 0
    · simp [h]
    · simp [h]; omega
  have hap : (if 12 ≤ hh then "PM" else "AM") = "AM"
      ∨ (if 12 ≤ hh then "PM" else "AM") = "PM" := by
    by_cases h : 12 ≤ hh <;> simp [h]
  unfold formatTime
  exact ⟨formatTime_core hk1 hk2 hmm hap,
    append_ne_empty_right _ _ (by by_cases h : 12 ≤ hh <;> simp [h])⟩

theorem normStr_normStr (s : String) : normStr (normStr s) = normStr s := by
  show (⟨normStrL (normStrL s.data)⟩ : String) = ⟨normStrL s.data⟩
  rw [normStrL_idem]

theorem normalizeTime_str_norm (s : String) :
    normalizeTime (.str (normStr s)) = normStr s := by
  by_cases h : normStr s = ""
  · show (if normStr s == "" then "" else normStr (normStr s)) = normStr s
    rw [if_pos (by simp [h]), h]
  · show (if normStr s == "" then "" else normStr (normStr s)) = normStr s
    rw [if_neg (by simp [h])]
    exact normStr_normStr s

theorem normalizeTime_str_fixed {F : String} (hne : F ≠ "")
    (hfix : normStrL F.data = F.data) : normalizeTime (.str F) = F := by
  show (if F == "" then "" else normStr F) = F
  rw [if_neg (by simp [hne])]
  show (⟨normStrL F.data⟩ : String) = F
  rw [hfix]

/-- C10: `normalizeTime` is idempotent — every output of `normalizeTime`
(a formatted 12-hour time, an unchanged string, or the rendering of a number
outside the two recognized ranges) is a fixed point of `normalizeTime`, for
every input cell (string, number, or empty). -/
theorem C10_normalizeTime_idem (c : Cell) :
    normalizeTime (.str (normalizeTime c)) = normalizeTime c := by
  match c with
  | .empty => rfl
  | .str s =>
    by_cases hs : s = ""
    · subst hs; rfl
    · have he : normalizeTime (.str s) = normStr s := by
        show (if s == "" then "" else normStr s) = normStr s
        rw [if_neg (by simp [hs])]
      rw [he]
      exact normalizeTime_str_norm s
  | .num q =>
    by_cases h1 : 0 ≤ q ∧ q < 1
    · have he : normalizeTime (.num q)
          = formatTime ((jsRound (ratMul q 1440)).toNat / 60)
              ((jsRound (ratMul q 1440)).toNat % 60) := by
        simp only [normalizeTime]
        rw [if_pos h1]
      have hmm : (jsRound (ratMul q 1440)).toNat % 60 ≤ 60 :=
        le_of_lt (Nat.mod_lt _ (by norm_num))
      obtain ⟨hfix, hne⟩ := formatTime_fixed _ _ hmm
      rw [he]
      exact normalizeTime_str_fixed hne hfix
    · by_cases h2 : 1 < q ∧ q < 24
      · have he : normalizeTime (.num q)
            = formatTime (jsFloor q).toNat
                (jsRound (ratMul (ratSub q (mkRat (jsFloor q) 1)) 60)).toNat := by
          simp only [normalizeTime]
          rw [if_neg h1, if_pos h2]
        have hbound : jsRound (ratMul (ratSub q (mkRat (jsFloor q) 1)) 60) ≤ 60 := by
          rw [jsRound_eq, ratMul_eq, ratSub_eq, jsFloor_eq, Rat.mkRat_one, round_eq]
          have hfrac : q - (⌊q⌋ : ℚ) < 1 := by
            have := Int.lt_floor_add_one q
            linarith
          have hle : ⌊(q - (⌊q⌋ : ℚ)) * 60 + 1 / 2⌋ < (61 : ℤ) :=
            Int.floor_lt.mpr (by push_cast; nlinarith)
          omega
        have hmm : (jsRound (ratMul (ratSub q (mkRat (jsFloor q) 1)) 60)).toNat ≤ 60 :=
          Int.toNat_le.mpr (by exact_mod_cast hbound)
        obtain ⟨hfix, hne⟩ := formatTime_fixed _ _ hmm
        rw [he]
        exact normalizeTime_str_fixed hne hfix
      · have he : normalizeTime (.num q) = normStr (numToString q) := by
          simp only [normalizeTime]
          rw [if_neg h1, if_neg h2]
        rw [he]
        exact normalizeTime_str_norm (numToString q)

